import Mathlib

/-!
Verification development for the `mqmonitor` process sampler
(`src/monitor.py`).  The Python program is shallowly embedded: Python
floats become `Rat`, Python dicts (which preserve insertion order)
become association lists, psutil reads and clock reads become oracle
functions supplied as cycle input, and exceptions (`ZeroDivisionError`,
`psutil.NoSuchProcess`) become `Except`/abort flags.
-/

namespace MqMonitor

/-! ## Association lists modelling Python dicts (insertion-ordered) -/

/-- `d.get(key)` on a Python dict modelled as an association list. -/
def alookup {α : Type} : List (Nat × α) → Nat → Option α
  | [], _ => none
  | (k, v) :: rest, key => if k = key then some v else alookup rest key

/-- `d[key] = v` on a Python dict: update in place keeping position,
or append a fresh key at the end. -/
def aset {α : Type} : List (Nat × α) → Nat → α → List (Nat × α)
  | [], key, v => [(key, v)]
  | (k, w) :: rest, key, v =>
    if k = key then (k, v) :: rest else (k, w) :: aset rest key v

/-- `d.keys()` in insertion order. -/
def akeys {α : Type} (l : List (Nat × α)) : List Nat := l.map Prod.fst

/-! ## Data model (mirrors the NamedTuples of `monitor.py`) -/

/-- One entry of `psutil.process_iter(attrs=['pid', 'name', 'ppid',
'cmdline', 'create_time'])`.  `cmdline` is `none` when unavailable
(Python `None`). -/
structure PInfo where
  pid : Nat
  ppid : Nat
  name : String
  cmdline : Option (List String)
  create_time : Rat
deriving Repr, DecidableEq

/-- One entry of `p.threads()`: id, name and cumulative user/system
CPU times. -/
structure ThreadInfo where
  id : Nat
  name : String
  user_time : Rat
  system_time : Rat
deriving Repr, DecidableEq

/-- The per-process psutil reads done inside `with p.oneshot()`
(lines 122-130 of `monitor.py`). -/
structure Sample where
  cpu_percent : Rat
  memory_rss : Nat
  num_mmaps : Nat
  num_threads : Nat
  threads : List ThreadInfo
deriving Repr, DecidableEq

/-- `ProcessRecord` of `monitor.py`, without the opaque `p_impl`
handle.  The single-element-list trick for `last_sys_time` and the
mutable dict `last_thread_proc_times` become ordinary fields updated
by state passing. -/
structure ProcRec where
  time : Rat
  pid : Nat
  parent_pid : Nat
  upid : Nat
  parent_upid : Option Nat
  name : String
  args : Option (List String)
  create_time : Rat
  last_sys_time : Rat
  last_thread_proc_times : List (Nat × Rat)
deriving Repr, DecidableEq

/-- `SystemUsageRecord` of `monitor.py`.  `cpu_iowait` is
`getattr(cpu_times_percent, 'iowait', None)`, hence optional. -/
structure SystemRow where
  time : Rat
  cpu : Rat
  cpu_user : Rat
  cpu_system : Rat
  cpu_idle : Rat
  cpu_iowait : Option Rat
  cpu_count : Nat
  mem_total : Rat
  mem_available : Rat
  mem_used : Rat
deriving Repr, DecidableEq

/-- `PerformanceRecord` of `monitor.py`.  `upid` is
`self._pid2upid.get(pr.pid)`, an optional lookup. -/
structure PerfRow where
  time : Rat
  pid : Nat
  upid : Option Nat
  cpu_percent : Rat
  memory_rss : Nat
  num_mmaps : Nat
  num_threads : Nat
deriving Repr, DecidableEq

/-- `PerformanceThreadRecord` of `monitor.py`. -/
structure ThreadRow where
  time : Rat
  pid : Nat
  upid : Option Nat
  tid : Nat
  name : String
  cpu_percent : Rat
deriving Repr, DecidableEq

/-- A cell value of the info stream row, as handed to
`csv.DictWriter.writerow`.  `noneC` is the writer's `restval` used for
a fieldname missing from the row dict. -/
inductive Cell where
  | ratC : Rat → Cell
  | natC : Nat → Cell
  | optNatC : Option Nat → Cell
  | strC : String → Cell
  | argsC : Option (List String) → Cell
  | ratListC : List Rat → Cell
  | histC : List (Nat × Rat) → Cell
  | noneC : Cell
deriving Repr, DecidableEq

/-- A record written to one of the four output streams. -/
inductive Event where
  | system : SystemRow → Event
  | info : List (String × Cell) → Event
  | pperf : PerfRow → Event
  | tperf : ThreadRow → Event
deriving Repr, DecidableEq

/-! ## Info-stream row construction -/

/-- `ProcessRecord._fields`, the fieldnames given to the info-stream
`csv.DictWriter` (line 208 of `monitor.py`). -/
def infoFieldnames : List String :=
  ["time", "pid", "parent_pid", "upid", "parent_upid", "name", "args",
   "create_time", "p_impl", "last_sys_time", "last_thread_proc_times"]

/-- The dict `r = pr._asdict(); del r['p_impl']` (lines 110-111):
lookup of a fieldname in that dict.  `p_impl` has been deleted, so it
returns `none` there. -/
def infoDictGet (pr : ProcRec) (k : String) : Option Cell :=
  if k = "time" then some (Cell.ratC pr.time)
  else if k = "pid" then some (Cell.natC pr.pid)
  else if k = "parent_pid" then some (Cell.natC pr.parent_pid)
  else if k = "upid" then some (Cell.natC pr.upid)
  else if k = "parent_upid" then some (Cell.optNatC pr.parent_upid)
  else if k = "name" then some (Cell.strC pr.name)
  else if k = "args" then some (Cell.argsC pr.args)
  else if k = "create_time" then some (Cell.ratC pr.create_time)
  else if k = "last_sys_time" then some (Cell.ratListC [pr.last_sys_time])
  else if k = "last_thread_proc_times" then
    some (Cell.histC pr.last_thread_proc_times)
  else none

/-- `csv.DictWriter.writerow`: one cell per fieldname, in fieldname
order, substituting `restval` for a fieldname absent from the dict. -/
def dictRow (fieldnames : List String) (d : String → Option Cell) :
    List (String × Cell) :=
  fieldnames.map (fun k => (k, (d k).getD Cell.noneC))

/-- The info row emitted for a newly discovered process
(line 112 of `monitor.py`). -/
def infoRowOf (pr : ProcRec) : List (String × Cell) :=
  dictRow infoFieldnames (infoDictGet pr)

/-! ## Matching and per-thread CPU computation -/

/-- `' '.join(cmdline or [])` (line 85): an unavailable (`None`) or
empty command line joins to the empty string. -/
def joinedCmdline (cmdline : Option (List String)) : String :=
  String.intercalate " " (cmdline.getD [])

/-- The keep-condition of the enumeration loop (lines 84-86):
a process is skipped iff
`not regex.match(name) and not regex.match(' '.join(cmdline or []))`.
`rm` is truthiness of `self._search_regex.match`. -/
def procMatches (rm : String → Bool) (name : String)
    (cmdline : Option (List String)) : Bool :=
  !(!(rm name) && !(rm (joinedCmdline cmdline)))

/-- Python's `round(x, 1)`: round half to even at one decimal place. -/
def pyRound1 (x : Rat) : Rat :=
  let y := x * 10
  let f : Int := ⌊y⌋
  let r := y - (f : Rat)
  let n : Int :=
    if r < 1/2 then f
    else if 1/2 < r then f + 1
    else if f % 2 = 0 then f else f + 1
  (n : Rat) / 10

/-- Lines 147-154 of `monitor.py`: the per-thread CPU percentage.
When the thread has no recorded previous total the result is `0.0`;
otherwise `delta / delta_sys * 100.0`, times the CPU count, rounded.
A zero `delta_sys` makes the Python division raise
`ZeroDivisionError`, modelled as `Except.error`. -/
def threadCpuPercent (nc : Nat) (sysTime lastSysTime : Rat)
    (lastTotalTime : Option Rat) (totalTime : Rat) : Except Unit Rat :=
  match lastTotalTime with
  | none => Except.ok (pyRound1 (0 * (nc : Rat)))
  | some last =>
    let delta := totalTime - last
    let deltaSys := sysTime - lastSysTime
    if deltaSys = 0 then Except.error ()
    else Except.ok (pyRound1 (delta / deltaSys * 100 * (nc : Rat)))

/-! ## One poll cycle -/

/-- All external reads of one call to `Monitor.monitor`: the process
enumeration, the per-pid psutil sampling (`Except.error` models
`psutil.NoSuchProcess` raised mid-cycle), the monotonic clock `_timer`
and the wall clock `time.time()` (indexed by call count), and the
system-wide psutil reads. -/
structure CycleInput where
  enumerated : List PInfo
  sample : Nat → Except Unit Sample
  timer : Nat → Rat
  wall : Nat → Rat
  sysCpu : Rat
  sysCpuUser : Rat
  sysCpuSystem : Rat
  sysCpuIdle : Rat
  sysCpuIowait : Option Rat
  sysCpuCount : Nat
  sysMemTotal : Rat
  sysMemAvailable : Rat
  sysMemUsed : Rat

/-- Monitor state across cycles: `_upid_counter`, `_pid2upid` and
`_current_processes` (the latter keyed by pid, kept in insertion
order like a Python dict). -/
structure MonState where
  counter : Nat
  pid2upid : List (Nat × Nat)
  procs : List ProcRec
deriving Repr, DecidableEq

/-- Accumulator of the enumeration loop (lines 80-112). -/
structure RecState where
  counter : Nat
  pid2upid : List (Nat × Nat)
  procs : List ProcRec
  current : List Nat
  events : List Event
  tick : Nat
  wtick : Nat
deriving Repr, DecidableEq

/-- One iteration of the enumeration loop (lines 82-112): skip a
non-matching process; record a matching pid in `current`; for a pid
not yet tracked, assign the next upid, extend `_pid2upid`, resolve the
parent upid in the current map, build the `ProcessRecord` (reading
`self.timer()` and `time.time()`) and emit its info row. -/
def enumStep (rm : String → Bool) (nc : Nat) (timer wall : Nat → Rat)
    (s : RecState) (e : PInfo) : RecState :=
  if procMatches rm e.name e.cmdline then
    let cur := s.current ++ [e.pid]
    if e.pid ∈ s.procs.map ProcRec.pid then
      { s with current := cur }
    else
      let counter := s.counter + 1
      let upid := counter
      let m := aset s.pid2upid e.pid upid
      let parentUpid := alookup m e.ppid
      let lst := timer s.tick * (nc : Rat)
      let tm := wall s.wtick
      let pr : ProcRec :=
        ⟨tm, e.pid, e.ppid, upid, parentUpid, e.name, e.cmdline,
         e.create_time, lst, []⟩
      ⟨counter, m, s.procs ++ [pr], cur,
       s.events ++ [Event.info (infoRowOf pr)], s.tick + 1, s.wtick + 1⟩
  else s

/-- Result of the thread loop (lines 143-159): updated
`last_thread_proc_times`, emitted thread rows, wall-clock call count,
and whether the loop finished without raising. -/
structure TLResult where
  hist : List (Nat × Rat)
  events : List Event
  wtick : Nat
  ok : Bool
deriving Repr, DecidableEq

/-- Lines 143-159 of `monitor.py`: for each thread compute the CPU
percentage from the history, store the new total in the history, look
up the upid, and emit a thread row.  A `ZeroDivisionError` aborts the
loop (and hence the enclosing cycle) at that thread: the history
updates and rows of earlier iterations persist. -/
def threadLoop (nc : Nat) (m : List (Nat × Nat)) (pid : Nat)
    (sysTime lastSysTime : Rat) (wall : Nat → Rat) :
    List ThreadInfo → List (Nat × Rat) → Nat → TLResult
  | [], hist, wtick => ⟨hist, [], wtick, true⟩
  | t :: ts, hist, wtick =>
    let totalTime := t.user_time + t.system_time
    match threadCpuPercent nc sysTime lastSysTime (alookup hist t.id)
        totalTime with
    | Except.error _ => ⟨hist, [], wtick, false⟩
    | Except.ok cpuPct =>
      let hist2 := aset hist t.id totalTime
      let upid := alookup m pid
      let row : ThreadRow := ⟨wall wtick, pid, upid, t.id, t.name, cpuPct⟩
      let res := threadLoop nc m pid sysTime lastSysTime wall ts hist2
        (wtick + 1)
      ⟨res.hist, Event.tperf row :: res.events, res.wtick, res.ok⟩

/-- Result of sampling one tracked process. -/
structure SampleResult where
  pr : ProcRec
  events : List Event
  tick : Nat
  wtick : Nat
  ok : Bool
deriving Repr, DecidableEq

/-- Lines 120-162 for one tracked process: the psutil reads (which may
raise `NoSuchProcess`, aborting before any write), the performance
record, the `self.timer()` read, the thread loop, then the performance
row write and the `last_sys_time` update.  On an abort inside the
thread loop the performance row is not written and `last_sys_time`
keeps its old value, but partial history updates persist. -/
def sampleProc (nc : Nat) (m : List (Nat × Nat)) (inp : CycleInput)
    (pr : ProcRec) (tick wtick : Nat) : SampleResult :=
  match inp.sample pr.pid with
  | Except.error _ => ⟨pr, [], tick, wtick, false⟩
  | Except.ok s =>
    let perfRow : PerfRow :=
      ⟨inp.wall wtick, pr.pid, alookup m pr.pid, s.cpu_percent,
       s.memory_rss, s.num_mmaps, s.num_threads⟩
    let sysTime := inp.timer tick * (nc : Rat)
    let res := threadLoop nc m pr.pid sysTime pr.last_sys_time inp.wall
      s.threads pr.last_thread_proc_times (wtick + 1)
    if res.ok then
      let pr2 := { pr with
        last_thread_proc_times := res.hist,
        last_sys_time := sysTime }
      ⟨pr2, res.events ++ [Event.pperf perfRow], tick + 1, res.wtick, true⟩
    else
      ⟨{ pr with last_thread_proc_times := res.hist },
       res.events, tick + 1, res.wtick, false⟩

/-- Result of the sampling loop over all tracked processes. -/
structure PhaseResult where
  procs : List ProcRec
  events : List Event
  tick : Nat
  wtick : Nat
  ok : Bool
deriving Repr, DecidableEq

/-- The `for pr in self._current_processes.values()` loop
(lines 120-162).  There is no per-process exception handler: a failure
propagates out of `Monitor.monitor`, so the remaining processes of the
cycle are not sampled and emit nothing; processes already sampled keep
their updates and rows. -/
def samplePhase (nc : Nat) (m : List (Nat × Nat)) (inp : CycleInput) :
    List ProcRec → Nat → Nat → PhaseResult
  | [], tick, wtick => ⟨[], [], tick, wtick, true⟩
  | pr :: rest, tick, wtick =>
    let r := sampleProc nc m inp pr tick wtick
    if r.ok then
      let r2 := samplePhase nc m inp rest r.tick r.wtick
      ⟨r.pr :: r2.procs, r.events ++ r2.events, r2.tick, r2.wtick, r2.ok⟩
    else
      ⟨r.pr :: rest, r.events, r.tick, r.wtick, false⟩

/-- Result of one call to `Monitor.monitor`: the new monitor state,
the records written (in write order), the clock call counts, and
whether the cycle ran to completion (`false` when an exception escaped
to the `except Exception` handler of the main loop). -/
structure CycleResult where
  state : MonState
  events : List Event
  tick : Nat
  wtick : Nat
  ok : Bool
deriving Repr, DecidableEq

/-- One call of `Monitor.monitor` (lines 76-162): write the system
row, run the enumeration loop, delete the tracked pids that are absent
from `current` (from both `_current_processes` and `_pid2upid`), then
run the sampling loop. -/
def monitorCycle (rm : String → Bool) (nc : Nat) (st : MonState)
    (inp : CycleInput) (tick wtick : Nat) : CycleResult :=
  let sysRow : SystemRow :=
    ⟨inp.wall wtick, inp.sysCpu, inp.sysCpuUser, inp.sysCpuSystem,
     inp.sysCpuIdle, inp.sysCpuIowait, inp.sysCpuCount,
     inp.sysMemTotal, inp.sysMemAvailable, inp.sysMemUsed⟩
  let r0 : RecState := ⟨st.counter, st.pid2upid, st.procs, [], [], tick,
    wtick + 1⟩
  let r1 := inp.enumerated.foldl (enumStep rm nc inp.timer inp.wall) r0
  let toDelete := (r1.procs.map ProcRec.pid).filter
    (fun p => decide (p ∉ r1.current))
  let procs2 := r1.procs.filter (fun pr => decide (pr.pid ∉ toDelete))
  let m2 := r1.pid2upid.filter (fun kv => decide (kv.1 ∉ toDelete))
  let ph := samplePhase nc m2 inp procs2 r1.tick r1.wtick
  ⟨⟨r1.counter, m2, ph.procs⟩,
   Event.system sysRow :: (r1.events ++ ph.events),
   ph.tick, ph.wtick, ph.ok⟩

/-- `Monitor.__init__`: counter 0, both maps empty. -/
def initState : MonState := ⟨0, [], []⟩

/-- The state-relevant part of one iteration of the main loop:
run one cycle, keep the resulting state and clock call counts
(a cycle aborted by an exception keeps its partial state updates,
matching the `except Exception` handler at line 227). -/
def runStep (rm : String → Bool) (nc : Nat) (s : MonState × Nat × Nat)
    (inp : CycleInput) : MonState × Nat × Nat :=
  let r := monitorCycle rm nc s.1 inp s.2.1 s.2.2
  (r.state, r.tick, r.wtick)

/-- The monitor state after the first `j` cycles of a run fed by
`inputs`, starting from a fresh `Monitor`. -/
def stateAfter (rm : String → Bool) (nc : Nat) (inputs : List CycleInput)
    (j : Nat) : MonState :=
  ((inputs.take j).foldl (runStep rm nc) (initState, 0, 0)).1

/-- The pids of the matching set of one enumeration (the pids added to
`current`). -/
def matchedPids (rm : String → Bool) (l : List PInfo) : List Nat :=
  (l.filter (fun e => procMatches rm e.name e.cmdline)).map PInfo.pid

/-- `self._pid2upid.get(p)` on a monitor state. -/
def trackedUpid (st : MonState) (p : Nat) : Option Nat :=
  alookup st.pid2upid p

/-- The logical identities currently tracked. -/
def upidsOf (st : MonState) : List Nat := st.procs.map ProcRec.upid

/-- Structural invariant tying the three identity-tracking fields
together: `_pid2upid` is exactly the pid/upid projection of
`_current_processes`, tracked pids are distinct, tracked upids are
strictly increasing in insertion order, and every tracked upid lies in
`[1, _upid_counter]`. -/
def MapsInv (c : Nat) (m : List (Nat × Nat)) (ps : List ProcRec) : Prop :=
  m = ps.map (fun pr => (pr.pid, pr.upid))
  ∧ (ps.map ProcRec.pid).Nodup
  ∧ (ps.map ProcRec.upid).Pairwise (fun a b => a < b)
  ∧ ∀ pr ∈ ps, 1 ≤ pr.upid ∧ pr.upid ≤ c

/-- `MapsInv` for a monitor state. -/
def Inv (st : MonState) : Prop := MapsInv st.counter st.pid2upid st.procs

/-- Modelled from the spec: the columns the specification asserts for
the info stream ("time, pid, parent_pid, logical_id,
parent_logical_id, name, args (serialized list), create_time"), to be
compared with the columns the program actually writes. -/
def specInfoColumns : List String :=
  ["time", "pid", "parent_pid", "logical_id", "parent_logical_id",
   "name", "args", "create_time"]

/-- A concrete cycle input used by witnesses: two enumerated
processes, of which only pid 100 (`worker-1`) matches the pattern
`worker`; pid 100 samples successfully with two threads, anything else
raises. -/
def exInput : CycleInput where
  enumerated := [⟨100, 1, "worker-1", some ["worker-1", "--x"], 5⟩,
                 ⟨7, 1, "bash", some ["bash"], 1⟩]
  sample := fun p =>
    if p = 100 then
      Except.ok ⟨12, 1000, 3, 2, [⟨100, "main", 1, 1⟩, ⟨101, "aux", 2, 0⟩]⟩
    else Except.error ()
  timer := fun t => (t : Rat) + 50
  wall := fun t => (t : Rat) + 1000
  sysCpu := 5
  sysCpuUser := 1
  sysCpuSystem := 2
  sysCpuIdle := 90
  sysCpuIowait := some 1
  sysCpuCount := 4
  sysMemTotal := 100
  sysMemAvailable := 60
  sysMemUsed := 40

/-- The matcher used by witnesses: the compiled pattern `worker`
(no regex metacharacters), whose `re.match` truthiness is literal
prefix matching on the character sequence. -/
def exMatch (s : String) : Bool := "worker".data.isPrefixOf s.data

/-- A cycle input where the only enumerated process matches nothing:
used to exercise departures. -/
def exInputEmpty : CycleInput where
  enumerated := []
  sample := fun _ => Except.error ()
  timer := fun t => (t : Rat) + 80
  wall := fun t => (t : Rat) + 2000
  sysCpu := 5
  sysCpuUser := 1
  sysCpuSystem := 2
  sysCpuIdle := 90
  sysCpuIowait := some 1
  sysCpuCount := 4
  sysMemTotal := 100
  sysMemAvailable := 60
  sysMemUsed := 40

/-- A minimal cycle input for the identity-tracking witnesses: one
enumerated process `worker-1` (pid 100, no command line), sampling
succeeds with no threads, all clocks read 0. -/
def exInputK : CycleInput where
  enumerated := [⟨100, 1, "worker-1", none, 5⟩]
  sample := fun _ => Except.ok ⟨0, 0, 0, 0, []⟩
  timer := fun _ => 0
  wall := fun _ => 0
  sysCpu := 0
  sysCpuUser := 0
  sysCpuSystem := 0
  sysCpuIdle := 0
  sysCpuIowait := none
  sysCpuCount := 4
  sysMemTotal := 0
  sysMemAvailable := 0
  sysMemUsed := 0

/-- A three-cycle run for the witnesses: pid 100 appears, disappears,
then reappears. -/
def exRun : List CycleInput := [exInputK, exInputEmpty, exInputK]

/-- A monitor state tracking two processes, pids 1 and 2, with
identities 1 and 2. -/
def exStC4 : MonState :=
  ⟨2, [(1, 1), (2, 2)],
   [⟨0, 1, 0, 1, none, "worker-a", none, 0, 0, []⟩,
    ⟨0, 2, 0, 2, none, "worker-b", none, 0, 0, []⟩]⟩

/-- A cycle input where both tracked processes still enumerate and
match, but sampling pid 1 raises `NoSuchProcess` while pid 2 would
sample fine. -/
def exInpC4 : CycleInput where
  enumerated := [⟨1, 0, "worker-a", none, 0⟩, ⟨2, 0, "worker-b", none, 0⟩]
  sample := fun p =>
    if p = 2 then Except.ok ⟨0, 0, 0, 0, []⟩ else Except.error ()
  timer := fun _ => 0
  wall := fun _ => 0
  sysCpu := 0
  sysCpuUser := 0
  sysCpuSystem := 0
  sysCpuIdle := 0
  sysCpuIowait := none
  sysCpuCount := 1
  sysMemTotal := 0
  sysMemAvailable := 0
  sysMemUsed := 0

/-! ## Association-list lemmas -/

theorem alookup_aset_self {α : Type} (l : List (Nat × α)) (k : Nat) (v : α) :
    alookup (aset l k v) k = some v := by
  induction l with
  | nil => simp [aset, alookup]
  | cons hd t ih =>
    obtain ⟨a, w⟩ := hd
    by_cases ha : a = k
    · subst ha; simp [aset, alookup]
    · simp [aset, alookup, ha, ih]

theorem alookup_aset_ne {α : Type} (l : List (Nat × α)) (k k' : Nat) (v : α)
    (h : k ≠ k') : alookup (aset l k v) k' = alookup l k' := by
  induction l with
  | nil => simp [aset, alookup, h]
  | cons hd t ih =>
    obtain ⟨a, w⟩ := hd
    by_cases ha : a = k
    · subst ha; simp [aset, alookup, h]
    · simp only [aset, if_neg ha]
      by_cases ha' : a = k'
      · simp [alookup, ha']
      · simp [alookup, ha', ih]

theorem alookup_eq_none_iff {α : Type} (l : List (Nat × α)) (k : Nat) :
    alookup l k = none ↔ k ∉ akeys l := by
  induction l with
  | nil => simp [alookup, akeys]
  | cons hd t ih =>
    obtain ⟨a, w⟩ := hd
    by_cases ha : a = k
    · subst ha; simp [alookup, akeys]
    · simp [alookup, akeys, ha, ih, Ne.symm ha]

/-! ## Per-thread CPU computation lemmas -/

theorem pyRound1_zero : pyRound1 0 = 0 := by
  norm_num [pyRound1]

theorem threadCpuPercent_first (nc : Nat) (s ls tt : Rat) :
    threadCpuPercent nc s ls none tt = Except.ok 0 := by
  simp [threadCpuPercent, pyRound1_zero]

theorem threadCpuPercent_delta (nc : Nat) (s ls t1 t2 : Rat)
    (h : s - ls ≠ 0) :
    threadCpuPercent nc s ls (some t1) t2 =
      Except.ok (pyRound1 ((t2 - t1) / (s - ls) * 100 * (nc : Rat))) := by
  simp [threadCpuPercent, h]

theorem threadCpuPercent_isOk (nc : Nat) (s ls : Rat) (lt : Option Rat)
    (tt : Rat) (h : s - ls ≠ 0) :
    ∃ v, threadCpuPercent nc s ls lt tt = Except.ok v := by
  cases lt with
  | none => exact ⟨_, threadCpuPercent_first nc s ls tt⟩
  | some t1 => exact ⟨_, threadCpuPercent_delta nc s ls t1 tt h⟩

/-! ## Thread-loop lemmas -/

theorem threadLoop_tid_mem (nc : Nat) (m : List (Nat × Nat)) (pid : Nat)
    (s ls : Rat) (wall : Nat → Rat) :
    ∀ (ts : List ThreadInfo) (hist : List (Nat × Rat)) (wtick : Nat)
      (row : ThreadRow),
      Event.tperf row ∈ (threadLoop nc m pid s ls wall ts hist wtick).events →
      row.tid ∈ ts.map ThreadInfo.id := by
  intro ts
  induction ts with
  | nil => intro hist wtick row h; simp [threadLoop] at h
  | cons t ts ih =>
    intro hist wtick row h
    simp only [threadLoop] at h
    cases hcp : threadCpuPercent nc s ls (alookup hist t.id)
        (t.user_time + t.system_time) with
    | error e => rw [hcp] at h; simp at h
    | ok v =>
      rw [hcp] at h
      simp only [List.mem_cons] at h
      rcases h with h | h
      · cases h
        simp
      · have := ih _ _ _ h
        simp [this]

theorem enumStep_current (rm : String → Bool) (nc : Nat)
    (timer wall : Nat → Rat) (s : RecState) (e : PInfo) :
    (enumStep rm nc timer wall s e).current =
      s.current ++ (if procMatches rm e.name e.cmdline then [e.pid] else []) := by
  unfold enumStep
  by_cases h : procMatches rm e.name e.cmdline
  · simp only [h, if_true]
    by_cases h2 : e.pid ∈ s.procs.map ProcRec.pid <;> simp [h2]
  · simp [h]

theorem matchedPids_cons (rm : String → Bool) (e : PInfo) (l : List PInfo) :
    matchedPids rm (e :: l) =
      (if procMatches rm e.name e.cmdline then [e.pid] else []) ++
        matchedPids rm l := by
  by_cases h : procMatches rm e.name e.cmdline <;>
    simp [matchedPids, List.filter_cons, h]

/-! ## Claim theorems: per-thread CPU computation -/

/-- C1: for a tracked thread with previously recorded cumulative total
`t1`, current total `t2 = user_time + system_time`, and positive
wall-basis delta `d = sys_time - last_sys_time` (both monotonic-clock
readings scaled by the CPU count), the thread loop emits exactly one
thread row for that thread id, and its CPU percentage is
`round((t2 - t1) / d * 100 * cpu_count, 1)`. -/
theorem thread_cpu_percent_formula (nc : Nat) (m : List (Nat × Nat))
    (pid : Nat) (s ls : Rat) (wall : Nat → Rat) (ts : List ThreadInfo)
    (hist : List (Nat × Rat)) (wtick : Nat) (t : ThreadInfo) (t1 : Rat)
    (hnd : (ts.map ThreadInfo.id).Nodup) (hmem : t ∈ ts)
    (hprev : alookup hist t.id = some t1)
    (hpos : 0 < s - ls) :
    (∃ row : ThreadRow,
        Event.tperf row ∈
          (threadLoop nc m pid s ls wall ts hist wtick).events ∧
        row.tid = t.id ∧
        row.cpu_percent =
          pyRound1 ((t.user_time + t.system_time - t1) / (s - ls) * 100 *
            (nc : Rat)))
    ∧ ∀ row : ThreadRow,
        Event.tperf row ∈
          (threadLoop nc m pid s ls wall ts hist wtick).events →
        row.tid = t.id →
        row.cpu_percent =
          pyRound1 ((t.user_time + t.system_time - t1) / (s - ls) * 100 *
            (nc : Rat)) := by
  have hd : s - ls ≠ 0 := hpos.ne'
  induction ts generalizing hist wtick with
  | nil => cases hmem
  | cons t' ts ih =>
    rcases List.mem_cons.mp hmem with rfl | htl
    · -- `t` is the head thread
      have hcp := threadCpuPercent_delta nc s ls t1
        (t.user_time + t.system_time) hd
      have hids : t.id ∉ ts.map ThreadInfo.id := by
        simpa using (List.nodup_cons.mp hnd).1
      constructor
      · refine ⟨⟨wall wtick, pid, alookup m pid, t.id, t.name,
          pyRound1 ((t.user_time + t.system_time - t1) / (s - ls) * 100 *
            (nc : Rat))⟩, ?_, rfl, rfl⟩
        simp [threadLoop, hprev, hcp]
      · intro row hrow htid
        simp only [threadLoop, hprev, hcp] at hrow
        rcases List.mem_cons.mp hrow with h | h
        · injection h with h2
          subst h2
          rfl
        · exact absurd (htid ▸ threadLoop_tid_mem nc m pid s ls wall
            ts _ _ row h) hids
    · -- `t` is in the tail
      have hnd' := (List.nodup_cons.mp hnd).2
      have hne : t'.id ≠ t.id := by
        intro hcontra
        exact (List.nodup_cons.mp hnd).1
          (hcontra ▸ List.mem_map_of_mem ThreadInfo.id htl)
      obtain ⟨v, hv⟩ := threadCpuPercent_isOk nc s ls (alookup hist t'.id)
        (t'.user_time + t'.system_time) hd
      have hlook : alookup (aset hist t'.id (t'.user_time + t'.system_time))
          t.id = some t1 := by
        rw [alookup_aset_ne _ _ _ _ hne]; exact hprev
      have hrec := ih (aset hist t'.id (t'.user_time + t'.system_time))
        (wtick + 1) hnd' htl hlook
      constructor
      · obtain ⟨row, hr1, hr2, hr3⟩ := hrec.1
        refine ⟨row, ?_, hr2, hr3⟩
        simp [threadLoop, hv]
        exact Or.inr hr1
      · intro row hrow htid
        simp only [threadLoop, hv] at hrow
        rcases List.mem_cons.mp hrow with h | h
        · injection h with h2
          subst h2
          exact absurd htid hne
        · exact hrec.2 row h htid

/-- C1 witness: a concrete instantiation.  One thread with id 100,
previous total 1, current total 2, sys-time delta 4, 4 CPUs: the
emitted percentage is `round(1/4*100*4, 1) = 100.0`. -/
theorem thread_cpu_percent_formula_witness :
    ∃ row : ThreadRow,
      Event.tperf row ∈
        (threadLoop 4 [(100, 1)] 100 204 200 (fun _ => 0)
          [⟨100, "main", 1, 1⟩] [(100, 1)] 0).events ∧
      row.tid = (⟨100, "main", 1, 1⟩ : ThreadInfo).id ∧
      row.cpu_percent =
        pyRound1 (((⟨100, "main", 1, 1⟩ : ThreadInfo).user_time +
          (⟨100, "main", 1, 1⟩ : ThreadInfo).system_time - 1) /
            ((204 : Rat) - 200) * 100 * ((4 : Nat) : Rat)) :=
  (thread_cpu_percent_formula 4 [(100, 1)] 100 204 200 (fun _ => 0)
    [⟨100, "main", 1, 1⟩] [(100, 1)] 0 ⟨100, "main", 1, 1⟩ 1
    (by simp) (by simp) (by simp [alookup]) (by norm_num)).1

/-- C2: the claim that a zero wall-basis delta yields a clamped 0.0
without raising is wrong on the code: with a recorded previous total
and `delta_sys = 0`, line 152 divides by zero and Python raises
`ZeroDivisionError` (modelled as `Except.error`), aborting the thread
loop with no row emitted for that thread. -/
theorem zero_delta_division_raises :
    threadCpuPercent 4 10 10 (some 1) 2 = Except.error () ∧
    threadLoop 4 [(100, 1)] 100 10 10 (fun _ => 0)
      [⟨5, "t", 1, 1⟩] [(5, 1)] 0 = ⟨[(5, 1)], [], 0, false⟩ := by
  have h : threadCpuPercent 4 10 10 (some 1) 2 = Except.error () := by
    simp [threadCpuPercent]
  refine ⟨h, ?_⟩
  have h2 : alookup [((5 : Nat), (1 : Rat))] 5 = some 1 := by simp [alookup]
  simp [threadLoop, h2]
  simp [threadCpuPercent]

/-- C5: a thread row emitted for a thread id that has no entry in the
process's thread history (a first observation for that (identity,
thread id) pair) always carries CPU percentage exactly `0.0` — the
multiplication by the CPU count and the rounding keep it `0.0`. -/
theorem first_thread_sample_zero (nc : Nat) (m : List (Nat × Nat))
    (pid : Nat) (s ls : Rat) (wall : Nat → Rat) (ts : List ThreadInfo)
    (hist : List (Nat × Rat)) (wtick : Nat) (tid : Nat) (row : ThreadRow)
    (hnd : (ts.map ThreadInfo.id).Nodup)
    (hnone : alookup hist tid = none)
    (hrow : Event.tperf row ∈
      (threadLoop nc m pid s ls wall ts hist wtick).events)
    (htid : row.tid = tid) :
    row.cpu_percent = 0 := by
  induction ts generalizing hist wtick with
  | nil => simp [threadLoop] at hrow
  | cons t ts ih =>
    simp only [threadLoop] at hrow
    cases hcp : threadCpuPercent nc s ls (alookup hist t.id)
        (t.user_time + t.system_time) with
    | error e => rw [hcp] at hrow; simp at hrow
    | ok v =>
      rw [hcp] at hrow
      rcases List.mem_cons.mp hrow with h | h
      · injection h with h2
        subst h2
        have hidt : t.id = tid := htid
        rw [hidt, hnone, threadCpuPercent_first] at hcp
        injection hcp with h3
        exact h3.symm
      · by_cases hid : t.id = tid
        · exfalso
          have hmem := threadLoop_tid_mem nc m pid s ls wall ts _ _ row h
          rw [htid, ← hid] at hmem
          exact (List.nodup_cons.mp hnd).1 hmem
        · have hlook : alookup (aset hist t.id (t.user_time + t.system_time))
              tid = none := by
            rw [alookup_aset_ne _ _ _ _ hid]; exact hnone
          exact ih (aset hist t.id (t.user_time + t.system_time)) (wtick + 1)
            (List.nodup_cons.mp hnd).2 hlook h

/-- C5 witness: first observation of thread id 101 (no history entry)
emits exactly `0.0`. -/
theorem first_thread_sample_zero_witness :
    (⟨1000, 100, some 1, 101, "aux", 0⟩ : ThreadRow).cpu_percent = 0 := by
  have hev : (threadLoop 4 [(100, 1)] 100 204 200 (fun _ => 1000)
      [⟨101, "aux", 2, 0⟩] [] 0).events =
      [Event.tperf ⟨1000, 100, some 1, 101, "aux", 0⟩] := by
    simp [threadLoop, threadCpuPercent, alookup, pyRound1_zero]
  exact first_thread_sample_zero 4 [(100, 1)] 100 204 200 (fun _ => 1000)
    [⟨101, "aux", 2, 0⟩] [] 0 101 ⟨1000, 100, some 1, 101, "aux", 0⟩
    (by simp) (by simp [alookup]) (by rw [hev]; simp) rfl

/-- C6: a process is kept by the enumeration filter iff the pattern
matches EITHER the process name OR the command line joined by single
spaces; an unavailable (`None`) command line joins to the empty string
so it never errors, and a match on the name alone suffices; the
matching set of a cycle consists exactly of the pids whose entry
satisfies that disjunction, in enumeration order. -/
theorem matching_set_characterisation (rm : String → Bool) (nc : Nat)
    (timer wall : Nat → Rat) :
    (∀ (name : String) (cmdline : Option (List String)),
        procMatches rm name cmdline =
          (rm name || rm (joinedCmdline cmdline)))
    ∧ (∀ name : String, procMatches rm name none = (rm name || rm ""))
    ∧ (∀ (name : String) (cmdline : Option (List String)),
        rm name = true → procMatches rm name cmdline = true)
    ∧ (∀ (l : List PInfo) (p : Nat),
        p ∈ matchedPids rm l ↔
          ∃ e ∈ l, e.pid = p ∧
            (rm e.name = true ∨ rm (joinedCmdline e.cmdline) = true))
    ∧ (∀ (l : List PInfo) (s : RecState),
        (l.foldl (enumStep rm nc timer wall) s).current =
          s.current ++ matchedPids rm l) := by
  have hbase : ∀ (name : String) (cmdline : Option (List String)),
      procMatches rm name cmdline = (rm name || rm (joinedCmdline cmdline)) := by
    intro name cmdline
    unfold procMatches
    cases h1 : rm name <;> cases h2 : rm (joinedCmdline cmdline) <;> simp [h1, h2]
  refine ⟨hbase, ?_, ?_, ?_, ?_⟩
  · intro name
    have : joinedCmdline none = "" := rfl
    rw [hbase, this]
  · intro name cmdline h
    rw [hbase, h, Bool.true_or]
  · intro l p
    simp only [matchedPids, List.mem_map, List.mem_filter]
    constructor
    · rintro ⟨e, ⟨hel, hm⟩, rfl⟩
      refine ⟨e, hel, rfl, ?_⟩
      rw [hbase] at hm
      exact Bool.or_eq_true_iff.mp hm
    · rintro ⟨e, hel, rfl, hm⟩
      refine ⟨e, ⟨hel, ?_⟩, rfl⟩
      rw [hbase]
      exact Bool.or_eq_true_iff.mpr hm
  · intro l
    induction l with
    | nil => intro s; simp [matchedPids]
    | cons e l ih =>
      intro s
      rw [List.foldl_cons, ih, matchedPids_cons, enumStep_current,
        List.append_assoc]

/-- C6 witness: `worker-1` with no argument vector still matches the
pattern `worker` on its name alone. -/
theorem matching_set_characterisation_witness :
    procMatches exMatch "worker-1" none = true :=
  (matching_set_characterisation exMatch 4 (fun _ => 0)
    (fun _ => 0)).2.2.1 "worker-1" none (by decide)

/-! ## Infrastructure for the identity-tracking invariants -/

theorem alookup_mem {α : Type} (l : List (Nat × α)) (k : Nat) (v : α)
    (h : alookup l k = some v) : (k, v) ∈ l := by
  induction l with
  | nil => simp [alookup] at h
  | cons hd t ih =>
    obtain ⟨a, w⟩ := hd
    by_cases ha : a = k
    · subst ha
      simp [alookup] at h
      simp [h]
    · simp only [alookup, if_neg ha] at h
      exact List.mem_cons_of_mem _ (ih h)

theorem aset_fresh {α : Type} (l : List (Nat × α)) (k : Nat) (v : α)
    (h : k ∉ akeys l) : aset l k v = l ++ [(k, v)] := by
  induction l with
  | nil => simp [aset]
  | cons hd t ih =>
    obtain ⟨a, w⟩ := hd
    have h1 : a ≠ k := fun hc => h (by simp [akeys, hc])
    have h2 : k ∉ akeys t := fun hc => h (List.mem_cons_of_mem _ hc)
    simp [aset, h1, ih h2]

theorem alookup_append_left {α : Type} (l1 l2 : List (Nat × α)) (k : Nat)
    (v : α) (h : alookup l1 k = some v) : alookup (l1 ++ l2) k = some v := by
  induction l1 with
  | nil => simp [alookup] at h
  | cons hd t ih =>
    obtain ⟨a, w⟩ := hd
    by_cases ha : a = k
    · subst ha
      simp [alookup] at h ⊢
      exact h
    · simp only [alookup, List.cons_append, if_neg ha] at h ⊢
      exact ih h

theorem alookup_pu (ps : List ProcRec)
    (hnd : (ps.map ProcRec.pid).Nodup) (pr : ProcRec) (hm : pr ∈ ps) :
    alookup (ps.map (fun q => (q.pid, q.upid))) pr.pid = some pr.upid := by
  induction ps with
  | nil => cases hm
  | cons hd t ih =>
    rcases List.mem_cons.mp hm with rfl | hm'
    · simp [alookup]
    · have hne : hd.pid ≠ pr.pid := by
        intro hcontra
        exact (List.nodup_cons.mp hnd).1
          (hcontra ▸ List.mem_map_of_mem ProcRec.pid hm')
      simp only [List.map_cons, alookup, if_neg hne]
      exact ih (List.nodup_cons.mp hnd).2 hm'

theorem pu_filter (ps : List ProcRec) (dl : List Nat) :
    (ps.map (fun pr => (pr.pid, pr.upid))).filter
        (fun kv => decide (kv.1 ∉ dl)) =
      (ps.filter (fun pr => decide (pr.pid ∉ dl))).map
        (fun pr => (pr.pid, pr.upid)) := by
  induction ps with
  | nil => simp
  | cons hd t ih =>
    by_cases h : hd.pid ∈ dl <;> simp [List.filter_cons, h] <;>
      simpa using ih

theorem pid_filter (ps : List ProcRec) (dl : List Nat) :
    (ps.filter (fun pr => decide (pr.pid ∉ dl))).map ProcRec.pid =
      (ps.map ProcRec.pid).filter (fun p => decide (p ∉ dl)) := by
  induction ps with
  | nil => simp
  | cons hd t ih =>
    by_cases h : hd.pid ∈ dl <;> simp [List.filter_cons, h] <;>
      simpa using ih

theorem akeys_pu (ps : List ProcRec) :
    akeys (ps.map (fun q => (q.pid, q.upid))) = ps.map ProcRec.pid := by
  simp [akeys, List.map_map]

theorem range'_cons (a n : Nat) :
    List.range' a (n + 1) = a :: List.range' (a + 1) n := rfl

theorem enumStep_inv (rm : String → Bool) (nc : Nat) (timer wall : Nat → Rat)
    (s : RecState) (e : PInfo)
    (h : MapsInv s.counter s.pid2upid s.procs) :
    MapsInv (enumStep rm nc timer wall s e).counter
      (enumStep rm nc timer wall s e).pid2upid
      (enumStep rm nc timer wall s e).procs := by
  obtain ⟨hm, hnd, hpw, hbd⟩ := h
  by_cases h1 : procMatches rm e.name e.cmdline
  swap
  · have hs : enumStep rm nc timer wall s e = s := by simp [enumStep, h1]
    rw [hs]
    exact ⟨hm, hnd, hpw, hbd⟩
  by_cases h2 : e.pid ∈ s.procs.map ProcRec.pid
  · have hs : enumStep rm nc timer wall s e =
        { s with current := s.current ++ [e.pid] } := by
      simp [enumStep, h1, h2]
    rw [hs]
    exact ⟨hm, hnd, hpw, hbd⟩
  · set pr : ProcRec := ⟨wall s.wtick, e.pid, e.ppid, s.counter + 1,
      alookup (aset s.pid2upid e.pid (s.counter + 1)) e.ppid, e.name,
      e.cmdline, e.create_time, timer s.tick * (nc : Rat), []⟩ with hpr
    have hs : enumStep rm nc timer wall s e =
        ⟨s.counter + 1, aset s.pid2upid e.pid (s.counter + 1),
         s.procs ++ [pr], s.current ++ [e.pid],
         s.events ++ [Event.info (infoRowOf pr)],
         s.tick + 1, s.wtick + 1⟩ := by
      simp [enumStep, h1, h2, hpr]
    rw [hs]
    have hkeys : akeys s.pid2upid = s.procs.map ProcRec.pid := by
      rw [hm]; exact akeys_pu s.procs
    have hfresh : e.pid ∉ akeys s.pid2upid := by rw [hkeys]; exact h2
    have haset : aset s.pid2upid e.pid (s.counter + 1) =
        s.pid2upid ++ [(e.pid, s.counter + 1)] := aset_fresh _ _ _ hfresh
    refine ⟨?_, ?_, ?_, ?_⟩
    · show aset s.pid2upid e.pid (s.counter + 1) =
        (s.procs ++ [pr]).map (fun q => (q.pid, q.upid))
      rw [haset, hm, List.map_append]
      rfl
    · show ((s.procs ++ [pr]).map ProcRec.pid).Nodup
      rw [List.map_append]
      refine List.Nodup.append hnd (by simp) ?_
      intro a ha hb
      simp [hpr] at hb
      subst hb
      exact h2 ha
    · show ((s.procs ++ [pr]).map ProcRec.upid).Pairwise (fun a b => a < b)
      rw [List.map_append, List.pairwise_append]
      refine ⟨hpw, by simp, ?_⟩
      intro a ha b hb
      simp [hpr] at hb
      subst hb
      obtain ⟨q, hq, rfl⟩ := List.mem_map.mp ha
      have := (hbd q hq).2
      omega
    · intro q hq
      rcases List.mem_append.mp hq with hq | hq
      · have := hbd q hq
        exact ⟨this.1, this.2.trans (Nat.le_succ _)⟩
      · simp at hq
        subst hq
        simp [hpr]

theorem append_split {α : Type} (u v l1 l2 : List α) (x : α)
    (h : u ++ v = l1 ++ x :: l2) :
    (∃ l2a, u = l1 ++ x :: l2a ∧ l2 = l2a ++ v) ∨
    (∃ l1b, l1 = u ++ l1b ∧ v = l1b ++ x :: l2) := by
  induction l1 generalizing u with
  | nil =>
    cases u with
    | nil => exact Or.inr ⟨[], rfl, h⟩
    | cons a u' =>
      simp only [List.nil_append, List.cons_append] at h
      injection h with h1 h2
      subst h1
      exact Or.inl ⟨u', rfl, h2.symm⟩
  | cons b l1' ih =>
    cases u with
    | nil => exact Or.inr ⟨b :: l1', rfl, h⟩
    | cons a u' =>
      simp only [List.cons_append] at h
      injection h with h1 h2
      subst h1
      rcases ih u' h2 with ⟨l2a, hu, hl⟩ | ⟨l1b, hl, hv⟩
      · exact Or.inl ⟨l2a, by rw [hu]; rfl, hl⟩
      · exact Or.inr ⟨l1b, by rw [hl]; rfl, hv⟩

theorem foldl_enumStep_spec (rm : String → Bool) (nc : Nat)
    (timer wall : Nat → Rat) (l : List PInfo) :
    ∀ s : RecState, MapsInv s.counter s.pid2upid s.procs →
      MapsInv (l.foldl (enumStep rm nc timer wall) s).counter
          (l.foldl (enumStep rm nc timer wall) s).pid2upid
          (l.foldl (enumStep rm nc timer wall) s).procs ∧
      (l.foldl (enumStep rm nc timer wall) s).current =
          s.current ++ matchedPids rm l ∧
      ∃ news : List ProcRec,
        (l.foldl (enumStep rm nc timer wall) s).procs = s.procs ++ news ∧
        news.map ProcRec.upid = List.range' (s.counter + 1) news.length ∧
        (l.foldl (enumStep rm nc timer wall) s).counter =
            s.counter + news.length ∧
        (∀ pr ∈ news, pr.pid ∉ s.procs.map ProcRec.pid) ∧
        (∀ pr ∈ news, pr.pid ∈
            (l.foldl (enumStep rm nc timer wall) s).current) ∧
        (l.foldl (enumStep rm nc timer wall) s).events =
            s.events ++ news.map (fun pr => Event.info (infoRowOf pr)) := by
  induction l with
  | nil =>
    intro s hinv
    exact ⟨hinv, by simp [matchedPids], [], by simp, by simp, by simp,
      by simp, by simp, by simp⟩
  | cons e l ih =>
    intro s hinv
    rw [List.foldl_cons]
    have hinv' := enumStep_inv rm nc timer wall s e hinv
    obtain ⟨rinv, rcur, news', hprocs, hupids, hcount, hfresh, hcur, hev⟩ :=
      ih (enumStep rm nc timer wall s e) hinv'
    by_cases h1 : procMatches rm e.name e.cmdline
    · by_cases h2 : e.pid ∈ s.procs.map ProcRec.pid
      · -- already tracked: only `current` changes
        have hs : enumStep rm nc timer wall s e =
            { s with current := s.current ++ [e.pid] } := by
          simp [enumStep, h1, h2]
        rw [hs] at rinv rcur hprocs hupids hcount hfresh hcur hev ⊢
        refine ⟨rinv, ?_, news', hprocs, hupids, hcount, hfresh, hcur, hev⟩
        rw [rcur, matchedPids_cons, if_pos h1]
        simp
      · -- newly discovered
        set pr : ProcRec := ⟨wall s.wtick, e.pid, e.ppid, s.counter + 1,
          alookup (aset s.pid2upid e.pid (s.counter + 1)) e.ppid, e.name,
          e.cmdline, e.create_time, timer s.tick * (nc : Rat), []⟩ with hpr
        have hs : enumStep rm nc timer wall s e =
            ⟨s.counter + 1, aset s.pid2upid e.pid (s.counter + 1),
             s.procs ++ [pr], s.current ++ [e.pid],
             s.events ++ [Event.info (infoRowOf pr)],
             s.tick + 1, s.wtick + 1⟩ := by
          simp [enumStep, h1, h2, hpr]
        rw [hs] at rinv rcur hprocs hupids hcount hfresh hcur hev ⊢
        refine ⟨rinv, ?_, pr :: news', ?_, ?_, ?_, ?_, ?_, ?_⟩
        · rw [rcur, matchedPids_cons, if_pos h1]
          simp
        · rw [hprocs]
          simp
        · simp only [List.map_cons]
          rw [hupids]
          show (s.counter + 1) :: List.range' (s.counter + 1 + 1) news'.length =
            List.range' (s.counter + 1) (news'.length + 1)
          rw [range'_cons]
        · rw [hcount]
          simp only [List.length_cons]
          omega
        · intro q hq
          rcases List.mem_cons.mp hq with rfl | hq'
          · exact h2
          · have := hfresh q hq'
            rw [List.map_append] at this
            intro hc
            exact this (List.mem_append_left _ hc)
        · intro q hq
          rcases List.mem_cons.mp hq with rfl | hq'
          · rw [rcur]
            have hpe : pr.pid = e.pid := rfl
            rw [hpe]
            simp
          · exact hcur q hq'
        · rw [hev]
          simp
    · -- not matching: the state is unchanged
      have hs : enumStep rm nc timer wall s e = s := by simp [enumStep, h1]
      rw [hs] at rinv rcur hprocs hupids hcount hfresh hcur hev ⊢
      refine ⟨rinv, ?_, news', hprocs, hupids, hcount, hfresh, hcur, hev⟩
      rw [rcur, matchedPids_cons, if_neg h1]
      simp

theorem sampleProc_proj (nc : Nat) (m : List (Nat × Nat)) (inp : CycleInput)
    (pr : ProcRec) (tick wtick : Nat) :
    (sampleProc nc m inp pr tick wtick).pr.pid = pr.pid ∧
    (sampleProc nc m inp pr tick wtick).pr.upid = pr.upid ∧
    (sampleProc nc m inp pr tick wtick).pr.parent_upid = pr.parent_upid := by
  unfold sampleProc
  cases inp.sample pr.pid with
  | error e => exact ⟨rfl, rfl, rfl⟩
  | ok s =>
    by_cases hok : (threadLoop nc m pr.pid (inp.timer tick * (nc : Rat))
        pr.last_sys_time inp.wall s.threads pr.last_thread_proc_times
        (wtick + 1)).ok
    · simp [hok]
    · simp [hok]

theorem samplePhase_mem (nc : Nat) (m : List (Nat × Nat)) (inp : CycleInput) :
    ∀ (ps : List ProcRec) (tick wtick : Nat),
      ∀ q ∈ (samplePhase nc m inp ps tick wtick).procs,
        ∃ pr ∈ ps, q.pid = pr.pid ∧ q.upid = pr.upid ∧
          q.parent_upid = pr.parent_upid := by
  intro ps
  induction ps with
  | nil => intro tick wtick q hq; simp [samplePhase] at hq
  | cons pr rest ih =>
    intro tick wtick q hq
    simp only [samplePhase] at hq
    by_cases hok : (sampleProc nc m inp pr tick wtick).ok
    · rw [if_pos hok] at hq
      rcases List.mem_cons.mp hq with rfl | hq'
      · exact ⟨pr, List.mem_cons_self _ _, sampleProc_proj nc m inp pr tick wtick⟩
      · obtain ⟨pr', hpr', hf⟩ := ih _ _ q hq'
        exact ⟨pr', List.mem_cons_of_mem _ hpr', hf⟩
    · rw [if_neg hok] at hq
      rcases List.mem_cons.mp hq with rfl | hq'
      · exact ⟨pr, List.mem_cons_self _ _, sampleProc_proj nc m inp pr tick wtick⟩
      · exact ⟨q, List.mem_cons_of_mem _ hq', rfl, rfl, rfl⟩

theorem samplePhase_proj (nc : Nat) (m : List (Nat × Nat)) (inp : CycleInput) :
    ∀ (ps : List ProcRec) (tick wtick : Nat),
      (samplePhase nc m inp ps tick wtick).procs.map
          (fun pr => (pr.pid, pr.upid, pr.parent_upid)) =
        ps.map (fun pr => (pr.pid, pr.upid, pr.parent_upid)) := by
  intro ps
  induction ps with
  | nil => intro tick wtick; simp [samplePhase]
  | cons pr rest ih =>
    intro tick wtick
    simp only [samplePhase]
    obtain ⟨hp1, hp2, hp3⟩ := sampleProc_proj nc m inp pr tick wtick
    by_cases hok : (sampleProc nc m inp pr tick wtick).ok
    · rw [if_pos hok]
      simp only [List.map_cons, hp1, hp2, hp3, ih]
    · rw [if_neg hok]
      simp only [List.map_cons, hp1, hp2, hp3]

theorem threadLoop_shape (nc : Nat) (m : List (Nat × Nat)) (pid : Nat)
    (s ls : Rat) (wall : Nat → Rat) :
    ∀ (ts : List ThreadInfo) (hist : List (Nat × Rat)) (wtick : Nat),
      ∀ e ∈ (threadLoop nc m pid s ls wall ts hist wtick).events,
        ∃ tr : ThreadRow, e = Event.tperf tr ∧ tr.upid = alookup m pid ∧
          tr.pid = pid := by
  intro ts
  induction ts with
  | nil => intro hist wtick e he; simp [threadLoop] at he
  | cons t ts ih =>
    intro hist wtick e he
    simp only [threadLoop] at he
    cases hcp : threadCpuPercent nc s ls (alookup hist t.id)
        (t.user_time + t.system_time) with
    | error er => rw [hcp] at he; simp at he
    | ok v =>
      rw [hcp] at he
      rcases List.mem_cons.mp he with rfl | he'
      · exact ⟨_, rfl, rfl, rfl⟩
      · exact ih _ _ e he'

theorem sampleProc_events (nc : Nat) (m : List (Nat × Nat)) (inp : CycleInput)
    (pr : ProcRec) (tick wtick : Nat) :
    ((sampleProc nc m inp pr tick wtick).ok = true →
      ∃ tl p, (sampleProc nc m inp pr tick wtick).events =
          tl ++ [Event.pperf p] ∧
        p.upid = alookup m pr.pid ∧
        ∀ e ∈ tl, ∃ tr, e = Event.tperf tr ∧ tr.upid = alookup m pr.pid) ∧
    ((sampleProc nc m inp pr tick wtick).ok = false →
      ∀ e ∈ (sampleProc nc m inp pr tick wtick).events,
        ∃ tr, e = Event.tperf tr ∧ tr.upid = alookup m pr.pid) ∧
    (∀ e ∈ (sampleProc nc m inp pr tick wtick).events,
      (∃ tr, e = Event.tperf tr ∧ tr.upid = alookup m pr.pid) ∨
      (∃ p, e = Event.pperf p ∧ p.upid = alookup m pr.pid)) := by
  unfold sampleProc
  cases hsm : inp.sample pr.pid with
  | error er =>
    refine ⟨?_, ?_, ?_⟩
    · intro h; simp at h
    · intro _ e he; simp at he
    · intro e he; simp at he
  | ok s =>
    by_cases hok : (threadLoop nc m pr.pid (inp.timer tick * (nc : Rat))
        pr.last_sys_time inp.wall s.threads pr.last_thread_proc_times
        (wtick + 1)).ok
    · refine ⟨?_, ?_, ?_⟩
      · intro _
        refine ⟨(threadLoop nc m pr.pid (inp.timer tick * (nc : Rat))
            pr.last_sys_time inp.wall s.threads pr.last_thread_proc_times
            (wtick + 1)).events,
          ⟨inp.wall wtick, pr.pid, alookup m pr.pid, s.cpu_percent,
            s.memory_rss, s.num_mmaps, s.num_threads⟩,
          by simp [hok], rfl, ?_⟩
        intro e he
        obtain ⟨tr, htr, hu, _⟩ := threadLoop_shape nc m pr.pid _ _ inp.wall
          s.threads pr.last_thread_proc_times (wtick + 1) e he
        exact ⟨tr, htr, hu⟩
      · intro hfalse
        simp [hok] at hfalse
      · intro e he
        simp only [hok, if_true] at he
        rcases List.mem_append.mp he with he' | he'
        · obtain ⟨tr, htr, hu, _⟩ := threadLoop_shape nc m pr.pid _ _ inp.wall
            s.threads pr.last_thread_proc_times (wtick + 1) e he'
          exact Or.inl ⟨tr, htr, hu⟩
        · simp at he'
          exact Or.inr ⟨_, he', rfl⟩
    · refine ⟨?_, ?_, ?_⟩
      · intro htrue
        simp [hok] at htrue
      · intro _ e he
        simp only [hok, if_false] at he
        obtain ⟨tr, htr, hu, _⟩ := threadLoop_shape nc m pr.pid _ _ inp.wall
          s.threads pr.last_thread_proc_times (wtick + 1) e he
        exact ⟨tr, htr, hu⟩
      · intro e he
        simp only [hok, if_false] at he
        obtain ⟨tr, htr, hu, _⟩ := threadLoop_shape nc m pr.pid _ _ inp.wall
          s.threads pr.last_thread_proc_times (wtick + 1) e he
        exact Or.inl ⟨tr, htr, hu⟩

theorem samplePhase_event_upids (nc : Nat) (m : List (Nat × Nat))
    (inp : CycleInput) :
    ∀ (ps : List ProcRec) (tick wtick : Nat),
      ∀ e ∈ (samplePhase nc m inp ps tick wtick).events,
        ∃ pr ∈ ps,
          (∃ tr, e = Event.tperf tr ∧ tr.upid = alookup m pr.pid) ∨
          (∃ p, e = Event.pperf p ∧ p.upid = alookup m pr.pid) := by
  intro ps
  induction ps with
  | nil => intro tick wtick e he; simp [samplePhase] at he
  | cons pr rest ih =>
    intro tick wtick e he
    simp only [samplePhase] at he
    by_cases hok : (sampleProc nc m inp pr tick wtick).ok
    · rw [if_pos hok] at he
      rcases List.mem_append.mp he with he' | he'
      · exact ⟨pr, List.mem_cons_self _ _,
          (sampleProc_events nc m inp pr tick wtick).2.2 e he'⟩
      · obtain ⟨pr', hpr', hf⟩ := ih _ _ e he'
        exact ⟨pr', List.mem_cons_of_mem _ hpr', hf⟩
    · rw [if_neg hok] at he
      exact ⟨pr, List.mem_cons_self _ _,
        (sampleProc_events nc m inp pr tick wtick).2.2 e he⟩

theorem samplePhase_order (nc : Nat) (m : List (Nat × Nat))
    (inp : CycleInput) :
    ∀ (ps : List ProcRec) (tick wtick : Nat),
      (ps.map (fun pr => alookup m pr.pid)).Nodup →
      ∀ l1 (r : PerfRow) l2,
        (samplePhase nc m inp ps tick wtick).events =
          l1 ++ Event.pperf r :: l2 →
        ∀ tr : ThreadRow, Event.tperf tr ∈ l2 → tr.upid ≠ r.upid := by
  intro ps
  induction ps with
  | nil =>
    intro tick wtick _ l1 r l2 hsplit tr htr
    simp only [samplePhase] at hsplit
    exact absurd hsplit.symm (by simp)
  | cons pr rest ih =>
    intro tick wtick hnd l1 r l2 hsplit tr htr
    simp only [samplePhase] at hsplit
    by_cases hok : (sampleProc nc m inp pr tick wtick).ok
    · rw [if_pos hok] at hsplit
      obtain ⟨tl, p, hev, hupid, htl⟩ :=
        (sampleProc_events nc m inp pr tick wtick).1 hok
      rw [hev] at hsplit
      rw [List.append_assoc] at hsplit
      rcases append_split _ _ _ _ _ hsplit with
        ⟨l2a, htl', hl2⟩ | ⟨l1b, _, hrest⟩
      · -- the split point is inside the head process's thread rows
        exfalso
        obtain ⟨tr', htr', _⟩ := htl (Event.pperf r) (by rw [htl']; simp)
        simp at htr'
      · rcases append_split _ _ _ _ _ hrest with
          ⟨l2a, hone, hl2⟩ | ⟨l1c, _, hrest2⟩
        · -- the pperf row is the head process's own performance row
          cases l1b with
          | nil =>
            simp only [List.nil_append] at hone
            injection hone with hone1 hone2
            injection hone1 with hone1
            subst hone1
            subst hone2
            simp only [List.nil_append] at hl2
            subst hl2
            obtain ⟨pr', hpr', hf⟩ :=
              samplePhase_event_upids nc m inp rest _ _ _ htr
            have htru : tr.upid = alookup m pr'.pid := by
              rcases hf with ⟨tr2, h2, hu⟩ | ⟨p2, h2, _⟩
              · injection h2 with h2; rw [h2]; exact hu
              · cases h2
            rw [htru]
            intro hcontra
            rw [hupid] at hcontra
            have hmm : alookup m pr'.pid ∈
                rest.map (fun q => alookup m q.pid) :=
              List.mem_map_of_mem _ hpr'
            rw [hcontra] at hmm
            exact (List.nodup_cons.mp hnd).1 hmm
          | cons b l1b' =>
            exfalso
            simp only [List.cons_append] at hone
            injection hone with hone1 hone2
            exact absurd hone2.symm (by simp)
        · -- the split point is inside the remaining processes' rows
          exact ih _ _ (List.nodup_cons.mp hnd).2 _ r l2 hrest2 tr htr
    · -- the head process failed: only thread rows were emitted
      rw [if_neg hok] at hsplit
      exfalso
      have hsplit' : (sampleProc nc m inp pr tick wtick).events =
          l1 ++ Event.pperf r :: l2 := hsplit
      have hmem : Event.pperf r ∈ (sampleProc nc m inp pr tick wtick).events := by
        rw [hsplit']; simp
      obtain ⟨tr', htr', _⟩ :=
        (sampleProc_events nc m inp pr tick wtick).2.1 (by simpa using hok)
          _ hmem
      simp at htr'

theorem delete_inv (c : Nat) (m : List (Nat × Nat)) (ps : List ProcRec)
    (dl : List Nat) (h : MapsInv c m ps) :
    MapsInv c (m.filter (fun kv => decide (kv.1 ∉ dl)))
      (ps.filter (fun pr => decide (pr.pid ∉ dl))) := by
  obtain ⟨hm, hnd, hpw, hbd⟩ := h
  refine ⟨?_, ?_, ?_, ?_⟩
  · rw [hm, pu_filter]
  · rw [pid_filter]
    exact hnd.filter _
  · exact hpw.sublist ((List.filter_sublist _).map ProcRec.upid)
  · intro pr hpr
    exact hbd pr (List.mem_of_mem_filter hpr)

theorem trackedUpid_eq (st : MonState) (hinv : Inv st) (p u : Nat) :
    trackedUpid st p = some u ↔
      ∃ pr ∈ st.procs, pr.pid = p ∧ pr.upid = u := by
  obtain ⟨hm, hnd, _, _⟩ := hinv
  constructor
  · intro h
    have := alookup_mem _ _ _ h
    rw [hm] at this
    obtain ⟨pr, hpr, heq⟩ := List.mem_map.mp this
    injection heq with h1 h2
    exact ⟨pr, hpr, h1, h2⟩
  · rintro ⟨pr, hpr, rfl, rfl⟩
    show alookup st.pid2upid pr.pid = some pr.upid
    rw [hm]
    exact alookup_pu st.procs hnd pr hpr

theorem monitorCycle_spec (rm : String → Bool) (nc : Nat) (st : MonState)
    (inp : CycleInput) (tick wtick : Nat) (hinv : Inv st) :
    Inv (monitorCycle rm nc st inp tick wtick).state ∧
    st.counter ≤ (monitorCycle rm nc st inp tick wtick).state.counter ∧
    (∀ p, p ∈ (monitorCycle rm nc st inp tick wtick).state.procs.map
        ProcRec.pid → p ∈ matchedPids rm inp.enumerated) ∧
    (∀ q ∈ (monitorCycle rm nc st inp tick wtick).state.procs,
      ∀ pr1 ∈ st.procs, q.pid = pr1.pid →
        q.upid = pr1.upid ∧ q.parent_upid = pr1.parent_upid) ∧
    (∀ q ∈ (monitorCycle rm nc st inp tick wtick).state.procs,
      q.pid ∉ st.procs.map ProcRec.pid → st.counter < q.upid) ∧
    (∀ v, v ∈ upidsOf (monitorCycle rm nc st inp tick wtick).state →
      v ∈ upidsOf st ∨ st.counter < v) ∧
    (∃ kept n, upidsOf (monitorCycle rm nc st inp tick wtick).state =
        kept ++ List.range' (st.counter + 1) n ∧
      (∀ v ∈ kept, v ∈ upidsOf st) ∧
      (monitorCycle rm nc st inp tick wtick).state.counter =
        st.counter + n) := by
  set r0 : RecState := ⟨st.counter, st.pid2upid, st.procs, [], [], tick,
    wtick + 1⟩ with hr0
  set r1 := inp.enumerated.foldl (enumStep rm nc inp.timer inp.wall) r0
    with hr1
  set toDelete := (r1.procs.map ProcRec.pid).filter
    (fun p => decide (p ∉ r1.current)) with htd
  set procs2 := r1.procs.filter (fun pr => decide (pr.pid ∉ toDelete))
    with hprocs2
  set m2 := r1.pid2upid.filter (fun kv => decide (kv.1 ∉ toDelete)) with hm2
  set ph := samplePhase nc m2 inp procs2 r1.tick r1.wtick with hph
  have hstate : (monitorCycle rm nc st inp tick wtick).state =
      ⟨r1.counter, m2, ph.procs⟩ := rfl
  obtain ⟨rinv, rcur, news, hprocs, hupids, hcount, hfresh, hcurm, hev⟩ :=
    foldl_enumStep_spec rm nc inp.timer inp.wall inp.enumerated r0 hinv
  have rcur0 : r1.current = [] ++ matchedPids rm inp.enumerated := rcur
  have rcur' : r1.current = matchedPids rm inp.enumerated := by
    simpa using rcur0
  have hprocs' : r1.procs = st.procs ++ news := hprocs
  have hupids' : news.map ProcRec.upid =
      List.range' (st.counter + 1) news.length := hupids
  have hcount' : r1.counter = st.counter + news.length := hcount
  have hfresh' : ∀ pr ∈ news, pr.pid ∉ st.procs.map ProcRec.pid := hfresh
  have rinv' : MapsInv r1.counter r1.pid2upid r1.procs := rinv
  have hdelinv : MapsInv r1.counter m2 procs2 :=
    delete_inv r1.counter r1.pid2upid r1.procs toDelete rinv'
  -- pids surviving the deletion are in the matching set
  have hkeysub : ∀ p, p ∈ procs2.map ProcRec.pid →
      p ∈ matchedPids rm inp.enumerated := by
    intro p hp
    rw [hprocs2, pid_filter] at hp
    have hp1 := List.mem_of_mem_filter hp
    have hp2 := List.of_mem_filter hp
    simp only [decide_not, Bool.not_eq_true', decide_eq_false_iff_not] at hp2
    rw [htd] at hp2
    by_cases hc : p ∈ r1.current
    · rw [← rcur']; exact hc
    · exfalso
      exact hp2 (List.mem_filter.mpr ⟨hp1, by simpa using hc⟩)
  -- the sampling phase preserves pid, upid and parent projections
  have htriple := samplePhase_proj nc m2 inp procs2 r1.tick r1.wtick
  rw [← hph] at htriple
  have hpid : ph.procs.map ProcRec.pid = procs2.map ProcRec.pid := by
    have h := congrArg (List.map (fun x : Nat × Nat × Option Nat => x.1))
      htriple
    simpa [List.map_map, Function.comp] using h
  have hupidm : ph.procs.map ProcRec.upid = procs2.map ProcRec.upid := by
    have h := congrArg (List.map (fun x : Nat × Nat × Option Nat => x.2.1))
      htriple
    simpa [List.map_map, Function.comp] using h
  have hpu : ph.procs.map (fun pr => (pr.pid, pr.upid)) =
      procs2.map (fun pr => (pr.pid, pr.upid)) := by
    have h := congrArg (List.map
      (fun x : Nat × Nat × Option Nat => (x.1, x.2.1))) htriple
    simpa [List.map_map, Function.comp] using h
  have hfinalinv : Inv (⟨r1.counter, m2, ph.procs⟩ : MonState) := by
    refine ⟨?_, ?_, ?_, ?_⟩
    · show m2 = ph.procs.map (fun pr => (pr.pid, pr.upid))
      rw [hpu]
      exact hdelinv.1
    · show (ph.procs.map ProcRec.pid).Nodup
      rw [hpid]
      exact hdelinv.2.1
    · show (ph.procs.map ProcRec.upid).Pairwise (fun a b => a < b)
      rw [hupidm]
      exact hdelinv.2.2.1
    · intro q hq
      obtain ⟨pr2, hpr2, he1, he2, _⟩ :=
        samplePhase_mem nc m2 inp procs2 r1.tick r1.wtick q hq
      rw [he2]
      exact hdelinv.2.2.2 pr2 hpr2
  -- membership transfer from the final state back to `st.procs ++ news`
  have hback : ∀ q ∈ ph.procs, ∃ pr2,
      (pr2 ∈ st.procs ∨ pr2 ∈ news) ∧ q.pid = pr2.pid ∧ q.upid = pr2.upid ∧
      q.parent_upid = pr2.parent_upid := by
    intro q hq
    obtain ⟨pr2, hpr2, hf⟩ :=
      samplePhase_mem nc m2 inp procs2 r1.tick r1.wtick q hq
    have : pr2 ∈ r1.procs := by
      rw [hprocs2] at hpr2
      exact List.mem_of_mem_filter hpr2
    rw [hprocs'] at this
    exact ⟨pr2, List.mem_append.mp this, hf⟩
  refine ⟨by rw [hstate]; exact hfinalinv, ?_, ?_, ?_, ?_, ?_, ?_⟩
  · rw [hstate]
    show st.counter ≤ r1.counter
    omega
  · intro p hp
    rw [hstate] at hp
    exact hkeysub p (by rw [← hpid]; exact hp)
  · intro q hq pr1 hpr1 hpideq
    rw [hstate] at hq
    obtain ⟨pr2, hor, he1, he2, he3⟩ := hback q hq
    rcases hor with hold | hnew
    · have : pr2 = pr1 := by
        refine List.inj_on_of_nodup_map hinv.2.1 hold hpr1 ?_
        show pr2.pid = pr1.pid
        rw [← he1, hpideq]
      subst this
      exact ⟨he2, he3⟩
    · exfalso
      have := hfresh' pr2 hnew
      rw [← he1, hpideq] at this
      exact this (List.mem_map_of_mem ProcRec.pid hpr1)
  · intro q hq hqnot
    rw [hstate] at hq
    obtain ⟨pr2, hor, he1, he2, _⟩ := hback q hq
    rcases hor with hold | hnew
    · exfalso
      rw [he1] at hqnot
      exact hqnot (List.mem_map_of_mem ProcRec.pid hold)
    · have hmem : pr2.upid ∈ news.map ProcRec.upid :=
        List.mem_map_of_mem ProcRec.upid hnew
      rw [hupids'] at hmem
      have := (List.mem_range'_1.mp hmem).1
      omega
  · intro v hv
    rw [hstate] at hv
    have hv' : v ∈ ph.procs.map ProcRec.upid := hv
    rw [hupidm, hprocs2] at hv'
    have : v ∈ r1.procs.map ProcRec.upid := by
      have hs : List.Sublist
          ((r1.procs.filter
            (fun pr => decide (pr.pid ∉ toDelete))).map ProcRec.upid)
          (r1.procs.map ProcRec.upid) :=
        (List.filter_sublist _).map ProcRec.upid
      exact hs.subset hv'
    rw [hprocs', List.map_append] at this
    rcases List.mem_append.mp this with hold | hnew
    · exact Or.inl hold
    · rw [hupids'] at hnew
      have := (List.mem_range'_1.mp hnew).1
      exact Or.inr (by omega)
  · -- the upids after the cycle: survivors followed by the fresh block
    have hcurm' : ∀ pr ∈ news, pr.pid ∈ r1.current := hcurm
    have hnews : news.filter (fun pr => decide (pr.pid ∉ toDelete)) = news := by
      rw [List.filter_eq_self]
      intro pr hpr
      have hc : pr.pid ∈ r1.current := hcurm' pr hpr
      simp only [decide_eq_true_eq]
      intro hmem
      have hmem' : pr.pid ∈ (r1.procs.map ProcRec.pid).filter
          (fun p => decide (p ∉ r1.current)) := hmem
      have := List.of_mem_filter hmem'
      simp only [decide_eq_true_eq] at this
      exact this hc
    refine ⟨(st.procs.filter (fun pr => decide (pr.pid ∉ toDelete))).map
      ProcRec.upid, news.length, ?_, ?_, ?_⟩
    · rw [hstate]
      show ph.procs.map ProcRec.upid = _
      rw [hupidm, hprocs2, hprocs', List.filter_append, hnews,
        List.map_append, hupids']
    · intro v hv
      obtain ⟨pr, hpr, rfl⟩ := List.mem_map.mp hv
      exact List.mem_map_of_mem ProcRec.upid (List.mem_of_mem_filter hpr)
    · rw [hstate]
      exact hcount'

theorem foldl_preserve {α β : Type} (f : α → β → α) (P : α → Prop)
    (hstep : ∀ a b, P a → P (f a b)) :
    ∀ (l : List β) (a : α), P a → P (l.foldl f a) := by
  intro l
  induction l with
  | nil => intro a ha; exact ha
  | cons b l ih => intro a ha; exact ih _ (hstep a b ha)

theorem initState_inv : Inv initState :=
  ⟨rfl, List.nodup_nil, List.Pairwise.nil,
   fun pr h => absurd h (List.not_mem_nil pr)⟩

theorem stateAfter_inv (rm : String → Bool) (nc : Nat)
    (inputs : List CycleInput) (j : Nat) :
    Inv (stateAfter rm nc inputs j) :=
  foldl_preserve (runStep rm nc)
    (fun s : MonState × Nat × Nat => Inv s.1)
    (fun a b ha => (monitorCycle_spec rm nc a.1 b a.2.1 a.2.2 ha).1)
    (inputs.take j) (initState, 0, 0) initState_inv

theorem trackedUpid_none (st : MonState) (hinv : Inv st) (p : Nat) :
    trackedUpid st p = none ↔ p ∉ st.procs.map ProcRec.pid := by
  unfold trackedUpid
  rw [alookup_eq_none_iff, hinv.1, akeys_pu]

theorem upid_le_counter (st : MonState) (hinv : Inv st) (u : Nat)
    (h : u ∈ upidsOf st) : u ≤ st.counter := by
  obtain ⟨pr, hpr, rfl⟩ := List.mem_map.mp h
  exact (hinv.2.2.2 pr hpr).2

theorem stateAfter_succ_ex (rm : String → Bool) (nc : Nat)
    (inputs : List CycleInput) (j : Nat) :
    stateAfter rm nc inputs (j + 1) = stateAfter rm nc inputs j ∨
    ∃ inp tick wtick, inputs[j]? = some inp ∧
      stateAfter rm nc inputs (j + 1) =
        (monitorCycle rm nc (stateAfter rm nc inputs j) inp tick wtick).state := by
  cases hj : inputs[j]? with
  | none =>
    left
    unfold stateAfter
    rw [List.take_succ, hj]
    simp
  | some inp =>
    right
    refine ⟨inp, ((inputs.take j).foldl (runStep rm nc) (initState, 0, 0)).2.1,
      ((inputs.take j).foldl (runStep rm nc) (initState, 0, 0)).2.2, rfl, ?_⟩
    unfold stateAfter
    rw [List.take_succ, hj, List.foldl_append]
    rfl

theorem stateAfter_succ_some (rm : String → Bool) (nc : Nat)
    (inputs : List CycleInput) (j : Nat) (inp : CycleInput)
    (hj : inputs[j]? = some inp) :
    ∃ tick wtick, stateAfter rm nc inputs (j + 1) =
      (monitorCycle rm nc (stateAfter rm nc inputs j) inp tick wtick).state := by
  refine ⟨((inputs.take j).foldl (runStep rm nc) (initState, 0, 0)).2.1,
    ((inputs.take j).foldl (runStep rm nc) (initState, 0, 0)).2.2, ?_⟩
  unfold stateAfter
  rw [List.take_succ, hj, List.foldl_append]
  rfl

theorem stateAfter_facts (rm : String → Bool) (nc : Nat)
    (inputs : List CycleInput) (j : Nat) :
    (stateAfter rm nc inputs j).counter ≤
        (stateAfter rm nc inputs (j + 1)).counter ∧
    (∀ v, v ∈ upidsOf (stateAfter rm nc inputs (j + 1)) →
      v ∈ upidsOf (stateAfter rm nc inputs j) ∨
        (stateAfter rm nc inputs j).counter < v) ∧
    (∀ q ∈ (stateAfter rm nc inputs (j + 1)).procs,
      ∀ pr1 ∈ (stateAfter rm nc inputs j).procs, q.pid = pr1.pid →
        q.upid = pr1.upid ∧ q.parent_upid = pr1.parent_upid) ∧
    (∀ q ∈ (stateAfter rm nc inputs (j + 1)).procs,
      q.pid ∉ (stateAfter rm nc inputs j).procs.map ProcRec.pid →
        (stateAfter rm nc inputs j).counter < q.upid) := by
  rcases stateAfter_succ_ex rm nc inputs j with heq | ⟨inp, tick, wtick, hj, heq⟩
  · rw [heq]
    refine ⟨le_refl _, fun v hv => Or.inl hv, ?_, ?_⟩
    · intro q hq pr1 hpr1 hpid
      have : q = pr1 := List.inj_on_of_nodup_map
        (stateAfter_inv rm nc inputs j).2.1 hq hpr1 hpid
      subst this
      exact ⟨rfl, rfl⟩
    · intro q hq hnot
      exact absurd (List.mem_map_of_mem ProcRec.pid hq) hnot
  · rw [heq]
    obtain ⟨_, h2, _, h4, h5, h6, _⟩ := monitorCycle_spec rm nc
      (stateAfter rm nc inputs j) inp tick wtick
      (stateAfter_inv rm nc inputs j)
    exact ⟨h2, h6, h4, h5⟩

theorem counter_mono (rm : String → Bool) (nc : Nat)
    (inputs : List CycleInput) (j : Nat) :
    ∀ m, j ≤ m →
      (stateAfter rm nc inputs j).counter ≤
        (stateAfter rm nc inputs m).counter := by
  intro m
  induction m with
  | zero =>
    intro h
    have : j = 0 := by omega
    subst this
    exact le_refl _
  | succ m ih =>
    intro h
    by_cases hj : j = m + 1
    · subst hj; exact le_refl _
    · exact (ih (by omega)).trans (stateAfter_facts rm nc inputs m).1

theorem upid_never_returns (rm : String → Bool) (nc : Nat)
    (inputs : List CycleInput) (j : Nat) (u : Nat)
    (hne : u ∉ upidsOf (stateAfter rm nc inputs j))
    (hle : u ≤ (stateAfter rm nc inputs j).counter) :
    ∀ m, j ≤ m → u ∉ upidsOf (stateAfter rm nc inputs m) := by
  intro m
  induction m with
  | zero =>
    intro h
    have : j = 0 := by omega
    subst this
    exact hne
  | succ m ih =>
    intro h
    by_cases hj : j = m + 1
    · subst hj; exact hne
    · have hjm : j ≤ m := by omega
      have hm := ih hjm
      intro hv
      rcases (stateAfter_facts rm nc inputs m).2.1 u hv with hold | hbig
      · exact hm hold
      · have := counter_mono rm nc inputs j m hjm
        omega

theorem upid_gap (rm : String → Bool) (nc : Nat) (inputs : List CycleInput)
    (j : Nat) (p : Nat)
    (hnone : trackedUpid (stateAfter rm nc inputs j) p = none) :
    ∀ m, j ≤ m →
      trackedUpid (stateAfter rm nc inputs m) p = none ∨
      ∃ v, trackedUpid (stateAfter rm nc inputs m) p = some v ∧
        (stateAfter rm nc inputs j).counter < v := by
  intro m
  induction m with
  | zero =>
    intro h
    have : j = 0 := by omega
    subst this
    exact Or.inl hnone
  | succ m ih =>
    intro h
    by_cases hj : j = m + 1
    · subst hj; exact Or.inl hnone
    · have hjm : j ≤ m := by omega
      have hInvm := stateAfter_inv rm nc inputs m
      have hInvm1 := stateAfter_inv rm nc inputs (m + 1)
      cases hcase : trackedUpid (stateAfter rm nc inputs (m + 1)) p with
      | none => exact Or.inl rfl
      | some v =>
        right
        refine ⟨v, rfl, ?_⟩
        obtain ⟨q, hq, hqpid, hqupid⟩ :=
          (trackedUpid_eq _ hInvm1 p v).mp hcase
        rcases ih hjm with hnonem | ⟨w, hsomem, hwgt⟩
        · have hnotin : q.pid ∉
              (stateAfter rm nc inputs m).procs.map ProcRec.pid := by
            rw [hqpid]
            exact (trackedUpid_none _ hInvm p).mp hnonem
          have hbig := (stateAfter_facts rm nc inputs m).2.2.2 q hq hnotin
          have hcm := counter_mono rm nc inputs j m hjm
          omega
        · obtain ⟨pr1, hpr1, hpr1pid, hpr1upid⟩ :=
            (trackedUpid_eq _ hInvm p w).mp hsomem
          have hstab := (stateAfter_facts rm nc inputs m).2.2.1 q hq pr1 hpr1
            (by rw [hqpid, hpr1pid])
          have h1 := hstab.1
          omega

/-! ## Claim theorems: identity tracking -/

/-- C3: across any run from a fresh monitor, (i) the upid counter
starts at 0 so the first assigned identity is 1; (ii) an OS pid absent
from cycle `j`'s matching set is, after cycle `j`'s reconciliation, no
longer tracked: its entry (logical identity and all stored history)
and its `_pid2upid` binding are gone; (iii) if a pid was tracked with
identity `u`, was untracked at some later cycle, and is tracked again
with identity `u'` at a yet later cycle, then `u < u'` — identities
are never reused; (iv) within one cycle the newly assigned identities
are consecutive integers `counter+1, counter+2, ...` in discovery
order, appended after the surviving identities. -/
theorem identity_lifecycle (rm : String → Bool) (nc : Nat)
    (inputs : List CycleInput) :
    (stateAfter rm nc inputs 0).counter = 0 ∧
    (∀ j inp p, inputs[j]? = some inp →
      p ∉ matchedPids rm inp.enumerated →
      p ∉ (stateAfter rm nc inputs (j + 1)).procs.map ProcRec.pid ∧
      trackedUpid (stateAfter rm nc inputs (j + 1)) p = none) ∧
    (∀ k j m p u u', k ≤ j → j ≤ m →
      trackedUpid (stateAfter rm nc inputs k) p = some u →
      trackedUpid (stateAfter rm nc inputs j) p = none →
      trackedUpid (stateAfter rm nc inputs m) p = some u' →
      u < u') ∧
    (∀ j inp, inputs[j]? = some inp → ∃ kept n,
      upidsOf (stateAfter rm nc inputs (j + 1)) =
        kept ++ List.range' ((stateAfter rm nc inputs j).counter + 1) n ∧
      (∀ v ∈ kept, v ∈ upidsOf (stateAfter rm nc inputs j)) ∧
      (stateAfter rm nc inputs (j + 1)).counter =
        (stateAfter rm nc inputs j).counter + n) := by
  refine ⟨rfl, ?_, ?_, ?_⟩
  · intro j inp p hj hnm
    obtain ⟨tick, wtick, heq⟩ := stateAfter_succ_some rm nc inputs j inp hj
    have spec := monitorCycle_spec rm nc (stateAfter rm nc inputs j) inp
      tick wtick (stateAfter_inv rm nc inputs j)
    have hkeys : p ∉ (stateAfter rm nc inputs (j + 1)).procs.map
        ProcRec.pid := by
      intro hp
      rw [heq] at hp
      exact hnm (spec.2.2.1 p hp)
    exact ⟨hkeys,
      (trackedUpid_none _ (stateAfter_inv rm nc inputs (j + 1)) p).mpr hkeys⟩
  · intro k j m p u u' hkj hjm hk hjn hm
    have hInvk := stateAfter_inv rm nc inputs k
    obtain ⟨qk, hqk, hqkpid, hqkupid⟩ := (trackedUpid_eq _ hInvk p u).mp hk
    have humem : u ∈ upidsOf (stateAfter rm nc inputs k) := by
      rw [← hqkupid]
      exact List.mem_map_of_mem ProcRec.upid hqk
    have hub : u ≤ (stateAfter rm nc inputs k).counter :=
      upid_le_counter _ hInvk u humem
    have hcm := counter_mono rm nc inputs k j hkj
    rcases upid_gap rm nc inputs j p hjn m hjm with hnone' | ⟨v, hv, hvgt⟩
    · rw [hm] at hnone'
      exact Option.noConfusion hnone'
    · rw [hm] at hv
      injection hv with hv'
      omega
  · intro j inp hj
    obtain ⟨tick, wtick, heq⟩ := stateAfter_succ_some rm nc inputs j inp hj
    rw [heq]
    exact (monitorCycle_spec rm nc (stateAfter rm nc inputs j) inp tick wtick
      (stateAfter_inv rm nc inputs j)).2.2.2.2.2.2

/-! ## Concrete three-cycle run used by the witnesses -/

theorem exRun_state1 : stateAfter exMatch 4 exRun 1 =
    ⟨1, [(100, 1)], [⟨0, 100, 1, 1, none, "worker-1", none, 5, 0, []⟩]⟩ := by
  have e1 : exMatch "worker-1" = true := by decide
  simp [stateAfter, exRun, runStep, monitorCycle, exInputK, enumStep,
    procMatches, joinedCmdline, e1, samplePhase, sampleProc, threadLoop,
    alookup, aset, initState, List.filter]

theorem exRun_state2 : stateAfter exMatch 4 exRun 2 = ⟨1, [], []⟩ := by
  have e1 : exMatch "worker-1" = true := by decide
  simp [stateAfter, exRun, runStep, monitorCycle, exInputK, exInputEmpty,
    enumStep, procMatches, joinedCmdline, e1, samplePhase, sampleProc,
    threadLoop, alookup, aset, initState, List.filter]

theorem exRun_state3 : stateAfter exMatch 4 exRun 3 =
    ⟨2, [(100, 2)], [⟨0, 100, 1, 2, none, "worker-1", none, 5, 0, []⟩]⟩ := by
  have e1 : exMatch "worker-1" = true := by decide
  simp [stateAfter, exRun, runStep, monitorCycle, exInputK, exInputEmpty,
    enumStep, procMatches, joinedCmdline, e1, samplePhase, sampleProc,
    threadLoop, alookup, aset, initState, List.filter]

/-- C3 witness: in the three-cycle run, pid 7 never matches so it is
untracked after cycle 1; pid 100 holds identity 1 after cycle 1, is
gone after cycle 2, and on reappearing after cycle 3 holds the
strictly larger identity 2. -/
theorem identity_lifecycle_witness :
    (100 ∉ (stateAfter exMatch 4 exRun 2).procs.map ProcRec.pid ∧
      trackedUpid (stateAfter exMatch 4 exRun 2) 100 = none) ∧
    (1 : Nat) < 2 := by
  constructor
  · exact (identity_lifecycle exMatch 4 exRun).2.1 1 exInputEmpty 100 rfl
      (by simp [matchedPids, exInputEmpty])
  · exact (identity_lifecycle exMatch 4 exRun).2.2.1 1 2 3 100 1 2
      (by omega) (by omega)
      (by rw [exRun_state1]; simp [trackedUpid, alookup])
      (by rw [exRun_state2]; simp [trackedUpid, alookup])
      (by rw [exRun_state3]; simp [trackedUpid, alookup])

/-- C7: at every instant between reconciliation steps, the pid-to-upid
map and the tracked-process map have the same key sequence, distinct
pids map to distinct logical identities (the mapping is a bijection
onto the tracked identities), and a logical identity that was tracked
and then retired never appears again in any later state. -/
theorem identity_bijection (rm : String → Bool) (nc : Nat)
    (inputs : List CycleInput) :
    (∀ j, akeys (stateAfter rm nc inputs j).pid2upid =
        (stateAfter rm nc inputs j).procs.map ProcRec.pid ∧
      ((stateAfter rm nc inputs j).procs.map ProcRec.upid).Nodup ∧
      (∀ p q u, trackedUpid (stateAfter rm nc inputs j) p = some u →
        trackedUpid (stateAfter rm nc inputs j) q = some u → p = q)) ∧
    (∀ k j m u, k ≤ j → j ≤ m →
      u ∈ upidsOf (stateAfter rm nc inputs k) →
      u ∉ upidsOf (stateAfter rm nc inputs j) →
      u ∉ upidsOf (stateAfter rm nc inputs m)) := by
  constructor
  · intro j
    have hinv := stateAfter_inv rm nc inputs j
    have hnd : ((stateAfter rm nc inputs j).procs.map ProcRec.upid).Nodup :=
      hinv.2.2.1.imp (fun h => Nat.ne_of_lt h)
    refine ⟨by rw [hinv.1, akeys_pu], hnd, ?_⟩
    intro p q u hp hq
    obtain ⟨prp, hprp, hppid, hpupid⟩ := (trackedUpid_eq _ hinv p u).mp hp
    obtain ⟨prq, hprq, hqpid, hqupid⟩ := (trackedUpid_eq _ hinv q u).mp hq
    have heq : prp = prq := List.inj_on_of_nodup_map hnd hprp hprq
      (by rw [hpupid, hqupid])
    rw [← hppid, ← hqpid, heq]
  · intro k j m u hkj hjm hmemk hnotj
    exact upid_never_returns rm nc inputs j u hnotj
      (le_trans (upid_le_counter _ (stateAfter_inv rm nc inputs k) u hmemk)
        (counter_mono rm nc inputs k j hkj)) m hjm

/-- C7 witness: identity 1 is tracked after cycle 1 of the three-cycle
run and retired after cycle 2; it never returns. -/
theorem identity_bijection_witness :
    1 ∉ upidsOf (stateAfter exMatch 4 exRun 2) :=
  (identity_bijection exMatch 4 exRun).2 1 2 2 1 (by omega) (by omega)
    (by rw [exRun_state1]; simp [upidsOf])
    (by rw [exRun_state2]; simp [upidsOf])

/-- C8: a newly discovered process's parent logical identity is the
lookup of its parent OS pid in the identity map as it stands at
discovery (after the new pid itself was inserted); when the parent pid
is not in that map — even if the parent process exists but is
unmatched — the stored parent identity is `none`; and no later cycle
changes the parent identity of a surviving tracked process. -/
theorem parent_identity_resolution :
    (∀ (rm : String → Bool) (nc : Nat) (timer wall : Nat → Rat)
       (s : RecState) (e : PInfo),
      procMatches rm e.name e.cmdline = true →
      e.pid ∉ s.procs.map ProcRec.pid →
      ∃ pr : ProcRec,
        (enumStep rm nc timer wall s e).procs = s.procs ++ [pr] ∧
        pr.pid = e.pid ∧
        pr.parent_upid =
          alookup (aset s.pid2upid e.pid (s.counter + 1)) e.ppid ∧
        (e.ppid ∉ akeys s.pid2upid → e.ppid ≠ e.pid →
          pr.parent_upid = none)) ∧
    (∀ (rm : String → Bool) (nc : Nat) (inputs : List CycleInput) (j : Nat),
      ∀ q ∈ (stateAfter rm nc inputs (j + 1)).procs,
        ∀ pr1 ∈ (stateAfter rm nc inputs j).procs,
          q.pid = pr1.pid → q.parent_upid = pr1.parent_upid) := by
  constructor
  · intro rm nc timer wall s e h1 h2
    refine ⟨⟨wall s.wtick, e.pid, e.ppid, s.counter + 1,
      alookup (aset s.pid2upid e.pid (s.counter + 1)) e.ppid, e.name,
      e.cmdline, e.create_time, timer s.tick * (nc : Rat), []⟩,
      ?_, rfl, rfl, ?_⟩
    · simp [enumStep, h1, h2]
    · intro hpp hne
      show alookup (aset s.pid2upid e.pid (s.counter + 1)) e.ppid = none
      rw [alookup_aset_ne _ _ _ _ (fun hc => hne hc.symm)]
      exact (alookup_eq_none_iff _ _).mpr hpp
  · intro rm nc inputs j q hq pr1 hpr1 hpid
    exact ((stateAfter_facts rm nc inputs j).2.2.1 q hq pr1 hpr1 hpid).2

/-- C8 witness: discovering `worker-1` (pid 100, parent pid 1, parent
untracked) in a fresh state stores a `none` parent identity. -/
theorem parent_identity_resolution_witness :
    ∃ pr : ProcRec,
      (enumStep exMatch 4 (fun _ => 0) (fun _ => 0)
        ⟨0, [], [], [], [], 0, 0⟩ ⟨100, 1, "worker-1", none, 5⟩).procs =
        [] ++ [pr] ∧
      pr.pid = 100 ∧
      pr.parent_upid = alookup (aset [] 100 1) 1 ∧
      (1 ∉ akeys ([] : List (Nat × Nat)) → (1 : Nat) ≠ 100 →
        pr.parent_upid = none) :=
  parent_identity_resolution.1 exMatch 4 (fun _ => 0) (fun _ => 0)
    ⟨0, [], [], [], [], 0, 0⟩ ⟨100, 1, "worker-1", none, 5⟩
    (by decide) (by simp)

/-! ## Claim theorems: output records -/

theorem infoRowOf_columns (pr : ProcRec) :
    (infoRowOf pr).map Prod.fst = infoFieldnames := by
  show (List.map (fun k => (k, (infoDictGet pr k).getD Cell.noneC))
    infoFieldnames).map Prod.fst = infoFieldnames
  rw [List.map_map]
  have h : List.map (Prod.fst ∘ fun k =>
      (k, (infoDictGet pr k).getD Cell.noneC)) infoFieldnames =
      List.map id infoFieldnames :=
    List.map_congr_left (fun a _ => rfl)
  rw [h, List.map_id]

/-- C4: the claim that a mid-cycle sampling failure skips only the
failing process is wrong on the code: there is no per-process handler,
so the exception aborts the remaining loop.  Concretely, with two
tracked matching processes (pids 1 and 2, in that order) where
sampling pid 1 raises and pid 2 would succeed, the cycle ends with
only the system row written — no performance or thread row for pid 2
— and the whole cycle reports the exception. -/
theorem mid_cycle_failure_aborts :
    (monitorCycle exMatch 1 exStC4 exInpC4 0 0).ok = false ∧
    (monitorCycle exMatch 1 exStC4 exInpC4 0 0).events =
      [Event.system ⟨0, 0, 0, 0, 0, none, 1, 0, 0, 0⟩] ∧
    exInpC4.sample 2 = Except.ok ⟨0, 0, 0, 0, []⟩ := by
  have ea : exMatch "worker-a" = true := by decide
  have eb : exMatch "worker-b" = true := by decide
  refine ⟨?_, ?_, rfl⟩ <;>
    simp [monitorCycle, exInpC4, exStC4, enumStep, procMatches,
      joinedCmdline, ea, eb, samplePhase, sampleProc, threadLoop, alookup,
      aset, List.filter]

/-- C9 counterexample: the info row the program writes does not
consist only of the spec's eight columns.  In a concrete cycle the
emitted info row carries all eleven `ProcessRecord` fieldnames —
including `p_impl` (written as the restval placeholder),
`last_sys_time` and `last_thread_proc_times`, none of which are among
the spec's claimed columns. -/
theorem info_row_extra_columns :
    ∃ row, Event.info row ∈
        (monitorCycle exMatch 4 initState exInputK 0 0).events ∧
      row.map Prod.fst = infoFieldnames ∧
      "last_sys_time" ∈ row.map Prod.fst ∧
      "p_impl" ∈ row.map Prod.fst ∧
      "last_sys_time" ∉ specInfoColumns ∧
      "p_impl" ∉ specInfoColumns := by
  have e1 : exMatch "worker-1" = true := by decide
  refine ⟨infoRowOf ⟨0, 100, 1, 1, none, "worker-1", none, 5, 0, []⟩,
    ?_, infoRowOf_columns _, ?_, ?_, ?_, ?_⟩
  · simp [monitorCycle, exInputK, enumStep, procMatches, joinedCmdline, e1,
      samplePhase, sampleProc, threadLoop, alookup, aset, initState,
      List.filter]
  · rw [infoRowOf_columns]
    simp [infoFieldnames]
  · rw [infoRowOf_columns]
    simp [infoFieldnames]
  · simp [specInfoColumns]
  · simp [specInfoColumns]

/-- C9 (amended): each cycle writes exactly one info row per newly
discovered logical identity, embedded in the cycle's record stream
immediately at discovery — after the system row, in discovery order,
before any sampling rows, with no info row elsewhere — and each such
row consists of the eleven `ProcessRecord` columns (time, pid,
parent_pid, upid, parent_upid, name, args, create_time, p_impl as the
restval placeholder, last_sys_time, last_thread_proc_times). -/
theorem info_rows_at_discovery (rm : String → Bool) (nc : Nat)
    (st : MonState) (inp : CycleInput) (tick wtick : Nat) (hinv : Inv st) :
    ∃ (news : List ProcRec) (srow : SystemRow) (sampleEvents : List Event),
      (monitorCycle rm nc st inp tick wtick).events =
        Event.system srow ::
          (news.map (fun pr => Event.info (infoRowOf pr)) ++ sampleEvents) ∧
      (∀ e ∈ sampleEvents, ∀ row, e ≠ Event.info row) ∧
      news.map ProcRec.upid = List.range' (st.counter + 1) news.length ∧
      (∀ pr ∈ news, (infoRowOf pr).map Prod.fst = infoFieldnames) := by
  set r0 : RecState := ⟨st.counter, st.pid2upid, st.procs, [], [], tick,
    wtick + 1⟩ with hr0
  set r1 := inp.enumerated.foldl (enumStep rm nc inp.timer inp.wall) r0
    with hr1
  set toDelete := (r1.procs.map ProcRec.pid).filter
    (fun p => decide (p ∉ r1.current)) with htd
  set procs2 := r1.procs.filter (fun pr => decide (pr.pid ∉ toDelete))
    with hprocs2
  set m2 := r1.pid2upid.filter (fun kv => decide (kv.1 ∉ toDelete)) with hm2
  set ph := samplePhase nc m2 inp procs2 r1.tick r1.wtick with hph
  have hevents : (monitorCycle rm nc st inp tick wtick).events =
      Event.system ⟨inp.wall wtick, inp.sysCpu, inp.sysCpuUser,
        inp.sysCpuSystem, inp.sysCpuIdle, inp.sysCpuIowait, inp.sysCpuCount,
        inp.sysMemTotal, inp.sysMemAvailable, inp.sysMemUsed⟩ ::
        (r1.events ++ ph.events) := rfl
  obtain ⟨rinv, rcur, news, hprocs, hupids, hcount, hfresh, hcurm, hev⟩ :=
    foldl_enumStep_spec rm nc inp.timer inp.wall inp.enumerated r0 hinv
  have hev0 : r1.events =
      [] ++ news.map (fun pr => Event.info (infoRowOf pr)) := hev
  have hev' : r1.events = news.map (fun pr => Event.info (infoRowOf pr)) := by
    simpa using hev0
  have hupids' : news.map ProcRec.upid =
      List.range' (st.counter + 1) news.length := hupids
  refine ⟨news, ⟨inp.wall wtick, inp.sysCpu, inp.sysCpuUser,
    inp.sysCpuSystem, inp.sysCpuIdle, inp.sysCpuIowait, inp.sysCpuCount,
    inp.sysMemTotal, inp.sysMemAvailable, inp.sysMemUsed⟩, ph.events,
    ?_, ?_, hupids', fun pr _ => infoRowOf_columns pr⟩
  · rw [hevents, hev']
  · intro e he row
    rcases samplePhase_event_upids nc m2 inp procs2 r1.tick r1.wtick e he
      with ⟨pr', _, ⟨tr, rfl, _⟩ | ⟨p, rfl, _⟩⟩ <;> simp

/-- C9 witness: the amended statement instantiated on a fresh monitor
and a cycle discovering one matching process. -/
theorem info_rows_at_discovery_witness :
    ∃ (news : List ProcRec) (srow : SystemRow) (sampleEvents : List Event),
      (monitorCycle exMatch 4 initState exInputK 0 0).events =
        Event.system srow ::
          (news.map (fun pr => Event.info (infoRowOf pr)) ++ sampleEvents) ∧
      (∀ e ∈ sampleEvents, ∀ row, e ≠ Event.info row) ∧
      news.map ProcRec.upid = List.range' (initState.counter + 1) news.length ∧
      (∀ pr ∈ news, (infoRowOf pr).map Prod.fst = infoFieldnames) :=
  info_rows_at_discovery exMatch 4 initState exInputK 0 0 initState_inv

/-- C10: in a cycle that runs to completion, the system-snapshot row
is the first record written, and for every tracked process all of its
thread rows precede its process-performance row: no thread row with a
given logical identity appears after the performance row carrying that
identity. -/
theorem cycle_event_order (rm : String → Bool) (nc : Nat) (st : MonState)
    (inp : CycleInput) (tick wtick : Nat) (hinv : Inv st)
    (hok : (monitorCycle rm nc st inp tick wtick).ok = true) :
    (∃ srow rest, (monitorCycle rm nc st inp tick wtick).events =
      Event.system srow :: rest) ∧
    (∀ l1 (r : PerfRow) l2,
      (monitorCycle rm nc st inp tick wtick).events =
        l1 ++ Event.pperf r :: l2 →
      ∀ tr : ThreadRow, Event.tperf tr ∈ l2 → tr.upid ≠ r.upid) := by
  set r0 : RecState := ⟨st.counter, st.pid2upid, st.procs, [], [], tick,
    wtick + 1⟩ with hr0
  set r1 := inp.enumerated.foldl (enumStep rm nc inp.timer inp.wall) r0
    with hr1
  set toDelete := (r1.procs.map ProcRec.pid).filter
    (fun p => decide (p ∉ r1.current)) with htd
  set procs2 := r1.procs.filter (fun pr => decide (pr.pid ∉ toDelete))
    with hprocs2
  set m2 := r1.pid2upid.filter (fun kv => decide (kv.1 ∉ toDelete)) with hm2
  set ph := samplePhase nc m2 inp procs2 r1.tick r1.wtick with hph
  have hevents : (monitorCycle rm nc st inp tick wtick).events =
      Event.system ⟨inp.wall wtick, inp.sysCpu, inp.sysCpuUser,
        inp.sysCpuSystem, inp.sysCpuIdle, inp.sysCpuIowait, inp.sysCpuCount,
        inp.sysMemTotal, inp.sysMemAvailable, inp.sysMemUsed⟩ ::
        (r1.events ++ ph.events) := rfl
  obtain ⟨rinv, rcur, news, hprocs, hupids, hcount, hfresh, hcurm, hev⟩ :=
    foldl_enumStep_spec rm nc inp.timer inp.wall inp.enumerated r0 hinv
  have hev0 : r1.events =
      [] ++ news.map (fun pr => Event.info (infoRowOf pr)) := hev
  have hev' : r1.events = news.map (fun pr => Event.info (infoRowOf pr)) := by
    simpa using hev0
  have rinv' : MapsInv r1.counter r1.pid2upid r1.procs := rinv
  have hdelinv : MapsInv r1.counter m2 procs2 :=
    delete_inv r1.counter r1.pid2upid r1.procs toDelete rinv'
  have hlk : ∀ pr ∈ procs2, alookup m2 pr.pid = some pr.upid := by
    intro pr hpr
    rw [hdelinv.1]
    exact alookup_pu procs2 hdelinv.2.1 pr hpr
  have hndlk : (procs2.map (fun pr => alookup m2 pr.pid)).Nodup := by
    have h1 : procs2.map (fun pr => alookup m2 pr.pid) =
        procs2.map (fun pr => some pr.upid) := List.map_congr_left hlk
    have h2 : procs2.map (fun pr => some pr.upid) =
        (procs2.map ProcRec.upid).map some := by simp [List.map_map]
    rw [h1, h2]
    exact List.Nodup.map (Option.some_injective _)
      (hdelinv.2.2.1.imp (fun h => Nat.ne_of_lt h))
  constructor
  · exact ⟨_, _, hevents⟩
  · intro l1 r l2 hsplit tr htr
    rw [hevents] at hsplit
    cases l1 with
    | nil =>
      simp only [List.nil_append] at hsplit
      injection hsplit with h1 _
      exact Event.noConfusion h1
    | cons e l1' =>
      simp only [List.cons_append] at hsplit
      injection hsplit with _ h2
      rcases append_split _ _ _ _ _ h2 with
        ⟨l2a, hinev, hl2⟩ | ⟨l1b, _, hphs⟩
      · exfalso
        have hmem : Event.pperf r ∈ r1.events := by rw [hinev]; simp
        rw [hev'] at hmem
        obtain ⟨pr', _, hcontra⟩ := List.mem_map.mp hmem
        exact Event.noConfusion hcontra
      · exact samplePhase_order nc m2 inp procs2 r1.tick r1.wtick hndlk
          l1b r l2 hphs tr htr

/-- C10 witness: the order property instantiated on a fresh monitor
and a successfully completing cycle. -/
theorem cycle_event_order_witness :
    ∃ srow rest, (monitorCycle exMatch 4 initState exInputK 0 0).events =
      Event.system srow :: rest :=
  (cycle_event_order exMatch 4 initState exInputK 0 0 initState_inv
    (by
      have e1 : exMatch "worker-1" = true := by decide
      simp [monitorCycle, exInputK, enumStep, procMatches, joinedCmdline, e1,
        samplePhase, sampleProc, threadLoop, alookup, aset, initState,
        List.filter])).1

end MqMonitor
